import Mathlib

/-!
Verification of the `yamasa/lockfree` hazard-pointer library.

This file gives a shallow embedding, in Lean 4, of the sequential behaviour
of the repository's components:

* `markable_ptr` (src/markable_ptr.h): a pointer packed with a one-bit mark.
* the hazard-pointer reclamation core (src/hazard_ptr.h, src/hazard_ptr.cc):
  the retirement queue, the scan of the hazard slots and the flush.
* the Michael-Scott queue (src/queue_hazard.h), executed sequentially.
* the Harris-Michael sorted list map (src/sortedlistmap.h), executed
  sequentially.

Addresses are modelled as natural numbers; the heap of each structure is a
function from addresses to optional nodes.  All executions are sequential,
so every compare-and-set whose expected value was read without an
intervening write succeeds; the CAS operations are nevertheless translated
as genuine compare-against-the-heap tests, so the failure branches of the
source are present (and provably untaken in sequential runs).
-/

namespace Lockfree

/-- Machine addresses, modelled as natural numbers. -/
abbrev Addr := Nat

/-! ## markable_ptr (src/markable_ptr.h)

A `markable_ptr<T>` packs a pointer and a one-bit mark into one
`uintptr_t`; alignment guarantees the low bit of a genuine pointer is
clear, so the packed word determines the pair (pointer value, mark) and
vice versa.  We model the word by the pair. -/

structure MPtr where
  p : Option Addr
  mark : Bool
deriving DecidableEq, Repr

namespace MPtr

/-- `markable_ptr(nullptr)`: the all-zero word. -/
def null : MPtr := ⟨none, false⟩

/-- `to_marked()`: same pointer bits, mark set (`mptr | 1`). -/
def to_marked (x : MPtr) : MPtr := ⟨x.p, true⟩

/-- `to_unmarked()`: same pointer bits, mark clear (`mptr & ~1`). -/
def to_unmarked (x : MPtr) : MPtr := ⟨x.p, false⟩

/-- `is_marked()`: the low bit. -/
def is_marked (x : MPtr) : Bool := x.mark

/-- `pointer()`: the pointer bits.  The source asserts `!is_marked()`;
every call site in this development is guarded by that check. -/
def pointer (x : MPtr) : Option Addr := x.p

/-- `operator bool()`: `*this != markable_ptr(nullptr)`, i.e. the packed
word is nonzero. -/
def toBool (x : MPtr) : Bool := decide (x ≠ null)

/-- Construction from a plain (possibly null) pointer: mark clear. -/
def ofPtr (p : Option Addr) : MPtr := ⟨p, false⟩

end MPtr

/-! ## Retirement queue and flush (src/hazard_ptr.cc)

`RetiredItem` is `{object, allocator, deleter}`; sequentially only the
object address matters to the flush logic, and invoking the deleter is
recorded in an explicit log.  `scanHp` collects the non-null contents of
every hazard slot, then sorts (`std::sort`, modelled by insertion sort)
and removes adjacent duplicates (`std::unique`).  `deleteItems` keeps the
items whose object is found in the scanned set (`std::binary_search` on
the sorted set, modelled by its documented result: membership) and
deletes the rest. -/

structure RItem where
  object : Addr
deriving DecidableEq, Repr

/-- `std::unique` on the sorted vector: remove adjacent duplicates. -/
def dedupAdj : List Addr → List Addr
  | [] => []
  | [a] => [a]
  | a :: b :: t => if a = b then dedupAdj (b :: t) else a :: dedupAdj (b :: t)

/-- `HazardRoot::scanHp`: collect the non-null hazard-slot values; if none
were collected return the empty set, otherwise sort and unique. -/
def scanHp (hps : List (Option Addr)) : List Addr :=
  let scaned := hps.filterMap id
  if scaned.isEmpty then scaned
  else dedupAdj (scaned.insertionSort (· ≤ ·))

/-- The `std::remove_if` traversal inside `HazardRoot::deleteItems`: walk
the retirement queue; an item whose object is in the scanned set is kept,
any other item has `doDelete()` invoked and is removed.  Returns the pair
(items kept, items whose deleter was invoked, in traversal order). -/
def removeAndDelete (scaned : List Addr) : List RItem → List RItem × List RItem
  | [] => ([], [])
  | it :: rest =>
    let r := removeAndDelete scaned rest
    if it.object ∈ scaned then (it :: r.1, r.2) else (r.1, it :: r.2)

/-- `HazardRoot::deleteItems`: if the scanned set is empty, every retired
item's deleter is invoked and the queue is cleared; otherwise the
`remove_if` traversal partitions the queue. -/
def deleteItems (scaned : List Addr) (retired : List RItem) :
    List RItem × List RItem :=
  if scaned.isEmpty then ([], retired)
  else removeAndDelete scaned retired

/-- `HazardRoot::flushRetired`: scan the hazard slots, then delete the
unprotected retired items. -/
def flushRetired (hps : List (Option Addr)) (retired : List RItem) :
    List RItem × List RItem :=
  deleteItems (scanHp hps) retired

/-! ## Flush with fallible deleters (src/hazard_ptr.cc, src/hazard_ptr.h)

`RetiredItem::doDelete` calls the recorded deleter function directly and
`HazardRoot::deleteItems` contains no exception handler, so a deleter
that raises propagates the exception out of the flush.  `RItemE` adds to
the retired item a flag saying whether its deleter raises; the
instrumented run returns `none` in the first component when an exception
escaped (the `std::remove_if` is abandoned before the `erase`, leaving
the queue in a valid but unspecified state), together with the log of the
deleter invocations that were started, in order. -/

structure RItemE where
  object : Addr
  dfail : Bool
deriving DecidableEq, Repr

/-- Whether `deleteItems` would invoke this item's deleter: always when the
scanned set is empty, otherwise exactly when the object is not found in
the scanned set. -/
def toDeleteE (scaned : List Addr) (it : RItemE) : Bool :=
  if scaned.isEmpty then true else !decide (it.object ∈ scaned)

/-- The empty-scan branch of `deleteItems` with fallible deleters: invoke
every deleter in order; a raising deleter aborts the loop and the
exception escapes (first component `none`). -/
def deleteAllE : List RItemE → Option Unit × List Addr
  | [] => (some (), [])
  | it :: rest =>
    if it.dfail then (none, [it.object])
    else
      let r := deleteAllE rest
      (r.1, it.object :: r.2)

/-- The `std::remove_if` traversal of `deleteItems` with fallible
deleters: left to right, keep protected items, invoke the deleter of the
others; a raising deleter aborts the traversal before the `erase`
(first component `none`). -/
def removeAndDeleteE (scaned : List Addr) :
    List RItemE → Option (List RItemE) × List Addr
  | [] => (some [], [])
  | it :: rest =>
    if it.object ∈ scaned then
      let r := removeAndDeleteE scaned rest
      (r.1.map (it :: ·), r.2)
    else if it.dfail then (none, [it.object])
    else
      let r := removeAndDeleteE scaned rest
      (r.1, it.object :: r.2)

/-- `HazardRoot::deleteItems` with fallible deleters. -/
def deleteItemsE (scaned : List Addr) (retired : List RItemE) :
    Option (List RItemE) × List Addr :=
  if scaned.isEmpty then
    let r := deleteAllE retired
    (r.1.map (fun _ => []), r.2)
  else removeAndDeleteE scaned retired

/-! ## retire and addRetired (src/hazard_ptr.h, src/hazard_ptr.cc) -/

/-- The flush threshold (`HAZARD_FLUSH_SIZE`, default 16). -/
def HAZARD_FLUSH_SIZE : Nat := 16

/-- The thread-visible pieces of a `hazard_ptr`: the published hazard slot
`hp_` and the cached local pointer `ptr_`. -/
structure HpSlot where
  hp : Option Addr
  ptr : Option Addr
deriving DecidableEq, Repr

/-- `HazardRecord::addRetired`: a null object returns immediately;
otherwise the item is appended and, once the queue reaches
`HAZARD_FLUSH_SIZE`, a flush runs.  Returns the new retirement queue, the
log of items whose deleter a triggered flush invoked, and whether a flush
ran.  `hps` is the contents of every hazard slot the flush would scan. -/
def addRetired (hps : List (Option Addr)) (retired : List RItem)
    (obj : Option Addr) : List RItem × List RItem × Bool :=
  match obj with
  | none => (retired, [], false)
  | some o =>
    let r := retired ++ [⟨o⟩]
    if HAZARD_FLUSH_SIZE ≤ r.length then
      let f := flushRetired hps r
      (f.1, f.2, true)
    else (r, [], false)

/-- `hazard_ptr::retire` (both overloads behave identically here): capture
`ptr_`, clear the slot (`reset()`), then `addRetired`. -/
def hpRetire (hps : List (Option Addr)) (slot : HpSlot)
    (retired : List RItem) : HpSlot × (List RItem × List RItem × Bool) :=
  let obj := slot.ptr
  (⟨none, none⟩, addRetired hps retired obj)

/-! ## Hazard-slot accounting (src/hazard_ptr.h)

`LocalData::allocateHpArray` bumps the per-record cursor `hp_used_` and
asserts it does not exceed the record's capacity `HAZARD_PTR_SIZE`
(default 3); `deallocateHpArray` moves it back.  Each library operation
brackets its body in `hazard_array<N>` construction/destruction; the
event lists below transcribe those brackets in source order. -/

/-- The per-record hazard-slot capacity (`HAZARD_PTR_SIZE`, default 3). -/
def HAZARD_PTR_SIZE : Nat := 3

/-- `LocalData::allocateHpArray`: advance the cursor; `none` is the debug
assertion `hp_used_ <= hp.size()` failing. -/
def allocateHpArray (used n : Nat) : Option Nat :=
  if used + n ≤ HAZARD_PTR_SIZE then some (used + n) else none

inductive HpEvent where
  | alloc (n : Nat)
  | free (n : Nat)
deriving DecidableEq, Repr

/-- Run a sequence of slot reservation events against the cursor;
`none` means the debug assertion fired. -/
def runHpEvents : Nat → List HpEvent → Option Nat
  | used, [] => some used
  | used, .alloc n :: rest =>
    match allocateHpArray used n with
    | some used' => runHpEvents used' rest
    | none => none
  | used, .free n :: rest => runHpEvents (used - n) rest

/-- The library's public operations (and the pool allocator's hot path),
as users of hazard slots. -/
inductive LibOp where
  | queueBaseEnqueue
  | queueEnqueueFreshNode
  | queueEnqueuePooledNode
  | queueDequeue
  | mapGet
  | mapPut
  | mapRemove
  | mapForEach
  | poolAllocate
deriving DecidableEq, Repr

/-- The hazard-slot events of each operation, transcribed from the
source: `QueueBase::enqueue` uses `hazard_array<1>`;
`Queue::enqueue` runs the allocator's `allocate` (with the node pool
and a non-empty pool, one `hazard_array<1>` scope) to completion before
`QueueBase::enqueue`; `Queue::dequeue` uses `hazard_array<2>` (a flush
triggered by the retire inside it reserves no slots); the map's
`get`/`put`/`remove` use `hazard_array<2>`; `forEach` uses
`hazard_array<3>`; `QueueNodePoolAllocator::allocate` uses
`hazard_array<1>`. -/
def hpEvents : LibOp → List HpEvent
  | .queueBaseEnqueue => [.alloc 1, .free 1]
  | .queueEnqueueFreshNode => [.alloc 1, .free 1]
  | .queueEnqueuePooledNode => [.alloc 1, .free 1, .alloc 1, .free 1]
  | .queueDequeue => [.alloc 2, .free 2]
  | .mapGet => [.alloc 2, .free 2]
  | .mapPut => [.alloc 2, .free 2]
  | .mapRemove => [.alloc 2, .free 2]
  | .mapForEach => [.alloc 3, .free 3]
  | .poolAllocate => [.alloc 1, .free 1]

/-! ## The Michael-Scott queue, sequentially (src/queue_hazard.h)

`Node<T>` is `{next, union u}`; the union's value is constructed by
`newNodeAndValue` and destroyed by `clearValue`, so it is modelled as an
`Option`: `none` when the payload is not (or no longer) constructed — in
particular in the dummy node.  The heap maps addresses to nodes;
`retire` keeps the node in the heap (reclamation is deferred), it merely
becomes unreachable from `head_`.  Execution is sequential, so every CAS
compares against the current heap and, on the paths actually taken,
succeeds. -/

structure NodeQ where
  next : Option Addr
  val : Option Nat
deriving DecidableEq, Repr

abbrev HeapQ := Addr → Option NodeQ

def updateQ (h : HeapQ) (a : Addr) (n : NodeQ) : HeapQ :=
  fun x => if x = a then some n else h x

structure QState where
  heap : HeapQ
  head : Addr
  tail : Addr
  fresh : Addr

/-- `Queue::Queue`: `init(newNode())` — a dummy node with `next = null`
and an unconstructed payload, pointed to by both `head_` and `tail_`. -/
def qInit : QState :=
  { heap := fun a => if a = 0 then some ⟨none, none⟩ else none,
    head := 0, tail := 0, fresh := 1 }

/-- `QueueBase::enqueue`'s loop: protected-load `tail_`; if the tail
node's `next` is non-null, help advance `tail_` (the CAS succeeds
sequentially) and retry; otherwise link the new node behind the tail
(CAS `tail->next: null → node`) and swing `tail_` to it.  `none` means
the fuel ran out or an unallocated address was dereferenced; neither
happens in reachable states. -/
def enqueueLoop (node : Addr) : Nat → QState → Option QState
  | 0, _ => none
  | fuel + 1, s =>
    match s.heap s.tail with
    | none => none
    | some tn =>
      match tn.next with
      | some nx => enqueueLoop node fuel { s with tail := nx }
      | none =>
        some { s with
               heap := updateQ s.heap s.tail ⟨some node, tn.val⟩,
               tail := node }

/-- `Queue::enqueue(args…)`: allocate a node holding the value (at the
next fresh address), then run `QueueBase::enqueue`. -/
def qEnqueue (fuel : Nat) (s : QState) (v : Nat) : Option QState :=
  let node := s.fresh
  enqueueLoop node fuel
    { s with heap := updateQ s.heap node ⟨none, some v⟩, fresh := s.fresh + 1 }

/-- `Queue::dequeue(receiver)` over `QueueBase::dequeue`: read `head_`
and the head node's `next`; if `next` is null return false; otherwise
help `tail_` when it equals `head_`, swing `head_` to `next` (the CAS
succeeds sequentially), deliver the new head node's value to the
receiver, destroy the value in place, and retire the old head (which
stays in the heap, now unreachable).  The delivered value is the second
component; `none` there is the `false` return. -/
def qDequeue (s : QState) : Option (QState × Option Nat) :=
  match s.heap s.head with
  | none => none
  | some hn =>
    match hn.next with
    | none => some (s, none)
    | some nx =>
      let s1 := if s.head = s.tail then { s with tail := nx } else s
      let s2 := { s1 with head := nx }
      match s2.heap nx with
      | none => none
      | some nn =>
        match nn.val with
        | none => none
        | some v =>
          some ({ s2 with heap := updateQ s2.heap nx ⟨nn.next, none⟩ }, some v)

inductive QOp where
  | enq (v : Nat)
  | deq
deriving DecidableEq, Repr

/-- Run a sequence of queue operations sequentially from a state,
collecting each dequeue's result (`none` = returned false).  The fuel
handed to each enqueue is `fresh + 1`, an upper bound on the length of
the node chain. -/
def qRunAux : List QOp → QState → Option (QState × List (Option Nat))
  | [], s => some (s, [])
  | QOp.enq v :: ops, s =>
    match qEnqueue (s.fresh + 1) s v with
    | none => none
    | some s' => qRunAux ops s'
  | QOp.deq :: ops, s =>
    match qDequeue s with
    | none => none
    | some (s', out) =>
      match qRunAux ops s' with
      | none => none
      | some (sf, outs) => some (sf, out :: outs)

def qRun (ops : List QOp) : Option (QState × List (Option Nat)) :=
  qRunAux ops qInit

def qRunOuts (ops : List QOp) : Option (List (Option Nat)) :=
  (qRun ops).map Prod.snd

/-- Reference FIFO queue: the dequeue results of a run. -/
def refQRun : List QOp → List Nat → List (Option Nat)
  | [], _ => []
  | QOp.enq v :: ops, q => refQRun ops (q ++ [v])
  | QOp.deq :: ops, q =>
    match q with
    | [] => none :: refQRun ops []
    | v :: rest => some v :: refQRun ops rest

/-- Reference FIFO queue: the contents after a run. -/
def refQFinal : List QOp → List Nat → List Nat
  | [], q => q
  | QOp.enq v :: ops, q => refQFinal ops (q ++ [v])
  | QOp.deq :: ops, q =>
    match q with
    | [] => refQFinal ops []
    | _ :: rest => refQFinal ops rest

/-- The addresses `l` form the successor chain starting after node `a`:
each node is allocated, linked to the next, and the last one's `next` is
null. -/
inductive ChainQ (heap : HeapQ) : Addr → List Addr → Prop
  | nil : ∀ {a : Addr} {n : NodeQ}, heap a = some n → n.next = none →
      ChainQ heap a []
  | cons : ∀ {a : Addr} {n : NodeQ} {b : Addr} {rest : List Addr},
      heap a = some n → n.next = some b → ChainQ heap b rest →
      ChainQ heap a (b :: rest)

/-- Node `a` is allocated and stores the constructed value `v`. -/
def valRel (heap : HeapQ) (a : Addr) (v : Nat) : Prop :=
  ∃ n : NodeQ, heap a = some n ∧ n.val = some v

/-- The sequential queue invariant: some address list `addrs` is the
chain after the dummy head; the queued values are exactly the values
stored in those nodes in order; `tail_` is the last node of the chain
(so never more than one link behind, and caught up); all chain addresses
are below the allocation bound and distinct; the dummy head node is
allocated with no constructed value. -/
def QInv (s : QState) (vs : List Nat) : Prop :=
  ∃ addrs : List Addr,
    ChainQ s.heap s.head addrs ∧
    List.Forall₂ (valRel s.heap) addrs vs ∧
    (s.head :: addrs).getLast? = some s.tail ∧
    (∀ a ∈ s.head :: addrs, a < s.fresh) ∧
    (s.head :: addrs).Nodup ∧
    (∃ hn : NodeQ, s.heap s.head = some hn ∧ hn.val = none)

/-! ## The Harris-Michael sorted list map, sequentially (src/sortedlistmap.h)

`Node : MarkableNodeBase` is `{next : markable_ptr, key, value}`.  The
sentinel `head_` lives at address 0 (its key/value fields are never
read).  A node's `next` carries the deletion mark in its low bit
(`MPtr.mark`).  `retire` is deferred reclamation: the node stays in the
heap, merely unreachable, so retiring is a no-op on the model state.
Execution is sequential: every CAS is translated as a genuine
compare-against-the-heap, and the restart/failure branches of the source
are present (and provably untaken on quiescent states). -/

structure MNode where
  next : MPtr
  key : Nat
  value : Nat
deriving DecidableEq, Repr

abbrev HeapL := Addr → Option MNode

def updateL (h : HeapL) (a : Addr) (n : MNode) : HeapL :=
  fun x => if x = a then some n else h x

structure LState where
  heap : HeapL
  fresh : Addr

/-- `SortedListMap::SortedListMap`: the sentinel with null `next`. -/
def lInit : LState :=
  { heap := fun a => if a = 0 then some ⟨MPtr.null, 0, 0⟩ else none,
    fresh := 1 }

/-- `atomic_compare_and_set(&node->next, expected, desired)`: compare the
node's current `next` word with `expected`; on success store `desired`.
Returns the new state and whether the CAS succeeded. -/
def casNext (s : LState) (a : Addr) (expected desired : MPtr) :
    Option (LState × Bool) :=
  match s.heap a with
  | none => none
  | some n =>
    if n.next = expected then
      some ({ s with heap := updateL s.heap a { n with next := desired } },
            true)
    else some (s, false)

/-- A plain (non-atomic) store `node->next = m`, used on the private new
node before it is published. -/
def setNext (s : LState) (a : Addr) (m : MPtr) : Option LState :=
  match s.heap a with
  | none => none
  | some n => some { s with heap := updateL s.heap a { n with next := m } }

/-- The loop of `SortedListMap::searchEqual`, entered at label `retry2`
with the current values of `prev_hp` (`prev`), `prev_next` and the
`curr_next` out-variable (`cn`).  Returns
`(state, found, prev, curr, curr_next)`; `none` is fuel exhaustion or a
dereference the sequential runs never perform. -/
def seFrom (key : Nat) : Nat → LState → Addr → MPtr → MPtr →
    Option (LState × Bool × Addr × Option Addr × MPtr)
  | 0, _, _, _, _ => none
  | fuel + 1, s, prev, prev_next, cn =>
    if prev_next.is_marked then
      match s.heap 0 with
      | none => none
      | some hd => seFrom key fuel s 0 hd.next cn
    else if prev_next.toBool = false then
      some (s, false, prev, none, cn)
    else
      match prev_next.p with
      | none => none
      | some c =>
        match s.heap prev with
        | none => none
        | some pn =>
          if prev_next ≠ pn.next then seFrom key fuel s prev pn.next cn
          else
            match s.heap c with
            | none => none
            | some cnd =>
              if cnd.next.is_marked then
                match casNext s prev prev_next cnd.next.to_unmarked with
                | none => none
                | some (s1, ok) =>
                  if ok then
                    seFrom key fuel s1 prev cnd.next.to_unmarked cnd.next
                  else
                    match s1.heap prev with
                    | none => none
                    | some pn1 => seFrom key fuel s1 prev pn1.next cnd.next
              else if cnd.key < key then
                seFrom key fuel s c cnd.next cnd.next
              else
                some (s, !decide (key < cnd.key), prev, some c, cnd.next)

/-- `SortedListMap::searchEqual` proper: label `retry1` loads
`prev->next`, then the loop runs. -/
def searchEqual (fuel : Nat) (s : LState) (prev : Addr) (cn0 : MPtr)
    (key : Nat) : Option (LState × Bool × Addr × Option Addr × MPtr) :=
  match s.heap prev with
  | none => none
  | some pn => seFrom key fuel s prev pn.next cn0

/-- `SortedListMap::replaceCurrNode`: CAS `curr->next : curr_next →
new_node.to_marked()`; on success CAS `prev->next : curr → new_node`,
read the old value out and (on the second CAS succeeding) retire `curr`
(a no-op on the model state).  On failure of the first CAS, reload
`curr_next`.  Returns `(state, succeeded, curr_next, out)`.  The entry
asserts both `curr_next` and `new_node` unmarked. -/
def replaceCurrNode (s : LState) (prev c : Addr) (curr_next new_node : MPtr) :
    Option (LState × Bool × MPtr × Option Nat) :=
  if curr_next.is_marked then none
  else if new_node.is_marked then none
  else
    match casNext s c curr_next new_node.to_marked with
    | none => none
    | some (s1, ok) =>
      if ok then
        match casNext s1 prev (MPtr.ofPtr (some c)) new_node with
        | none => none
        | some (s2, _) =>
          match s2.heap c with
          | none => none
          | some cn => some (s2, true, curr_next, some cn.value)
      else
        match s1.heap c with
        | none => none
        | some cn => some (s1, false, cn.next, none)

/-- The `do … while (!curr_next.is_marked())` of `SortedListMap::put`'s
found branch.  Result `some (s, some (replaced, out), cn)` is a return
from `put`; `some (s, none, cn)` is the exit to the outer retry loop. -/
def putInner (value : Nat) (node : Addr) :
    Nat → LState → Addr → Addr → MPtr →
    Option (LState × Option (Bool × Option Nat) × MPtr)
  | 0, _, _, _, _ => none
  | fuel + 1, s, prev, c, cn =>
    match setNext s node cn with
    | none => none
    | some s1 =>
      match replaceCurrNode s1 prev c cn (MPtr.ofPtr (some node)) with
      | none => none
      | some (s2, ok, _, out) =>
        if ok then some (s2, some (true, out), cn)
        else
          match s2.heap c with
          | none => none
          | some cnd =>
            if cnd.next.is_marked then some (s2, none, cnd.next)
            else putInner value node fuel s2 prev c cnd.next

/-- The outer `for (;;)` of `SortedListMap::put`.  `prev`/`cn` are the
current values of `prev_hp` and the `curr_next` variable. -/
def putLoop (key value : Nat) (node : Addr) (seFuel : Nat) :
    Nat → LState → Addr → MPtr → Option (LState × Bool × Option Nat)
  | 0, _, _, _ => none
  | fuel + 1, s, prev, cn =>
    match searchEqual seFuel s prev cn key with
    | none => none
    | some (s1, found, prev1, curr1, cn1) =>
      if found then
        match curr1 with
        | none => none
        | some c =>
          match putInner value node seFuel s1 prev1 c cn1 with
          | none => none
          | some (s2, some r, _) => some (s2, r.1, r.2)
          | some (s2, none, cn2) => putLoop key value node seFuel fuel s2 prev1 cn2
      else
        let pn := MPtr.ofPtr curr1
        match setNext s1 node pn with
        | none => none
        | some s2 =>
          match casNext s2 prev1 pn (MPtr.ofPtr (some node)) with
          | none => none
          | some (s3, ok) =>
            if ok then some (s3, false, none)
            else putLoop key value node seFuel fuel s3 prev1 cn1

/-- `SortedListMap::put`: allocate the node first, then run the loop
with `prev_hp` at the sentinel. -/
def putOp (s : LState) (key value : Nat) : Option (LState × Bool × Option Nat) :=
  let node := s.fresh
  let s1 : LState :=
    { heap := updateL s.heap node ⟨MPtr.null, key, value⟩,
      fresh := s.fresh + 1 }
  putLoop key value node (s1.fresh + 1) (s1.fresh + 1) s1 0 MPtr.null

/-- The `do … while (!curr_next.is_marked())` of `SortedListMap::remove`:
`replaceCurrNode` with `new_node := curr_next`. -/
def removeInner :
    Nat → LState → Addr → Addr → MPtr →
    Option (LState × Option (Bool × Option Nat) × MPtr)
  | 0, _, _, _, _ => none
  | fuel + 1, s, prev, c, cn =>
    match replaceCurrNode s prev c cn cn with
    | none => none
    | some (s2, ok, _, out) =>
      if ok then some (s2, some (true, out), cn)
      else
        match s2.heap c with
        | none => none
        | some cnd =>
          if cnd.next.is_marked then some (s2, none, cnd.next)
          else removeInner fuel s2 prev c cnd.next

/-- The outer `for (;;)` of `SortedListMap::remove`. -/
def removeLoop (key : Nat) (seFuel : Nat) :
    Nat → LState → Addr → MPtr → Option (LState × Bool × Option Nat)
  | 0, _, _, _ => none
  | fuel + 1, s, prev, cn =>
    match searchEqual seFuel s prev cn key with
    | none => none
    | some (s1, found, prev1, curr1, cn1) =>
      if found then
        match curr1 with
        | none => none
        | some c =>
          match removeInner seFuel s1 prev1 c cn1 with
          | none => none
          | some (s2, some r, _) => some (s2, r.1, r.2)
          | some (s2, none, cn2) => removeLoop key seFuel fuel s2 prev1 cn2
      else some (s1, false, none)

def removeOp (s : LState) (key : Nat) : Option (LState × Bool × Option Nat) :=
  removeLoop key (s.fresh + 2) (s.fresh + 2) s 0 MPtr.null

/-- `SortedListMap::get`: search from the sentinel; on found copy the
value out. -/
def getOp (s : LState) (key : Nat) : Option (LState × Bool × Option Nat) :=
  match searchEqual (s.fresh + 2) s 0 MPtr.null key with
  | none => none
  | some (s1, found, _, curr1, _) =>
    if found then
      match curr1 with
      | none => none
      | some c =>
        match s1.heap c with
        | none => none
        | some n => some (s1, true, some n.value)
    else some (s1, false, none)

/-- The traversal of `SortedListMap::forEach`, entered at `retry2` with
the current `prev`, `prev_next` and `skip_hp` (the address of the
last-visited node when a restart happened), accumulating the
`(key, value)` arguments of the `function` calls in order. -/
def feFrom : Nat → LState → Addr → MPtr → Option Addr → List (Nat × Nat) →
    Option (LState × List (Nat × Nat))
  | 0, _, _, _, _, _ => none
  | fuel + 1, s, prev, prev_next, skip, acc =>
    if prev_next.is_marked then
      let skip1 := if skip.isNone then some prev else skip
      match s.heap 0 with
      | none => none
      | some hd => feFrom fuel s 0 hd.next skip1 acc
    else if prev_next.toBool = false then some (s, acc)
    else
      match prev_next.p with
      | none => none
      | some c =>
        match s.heap prev with
        | none => none
        | some pn =>
          if prev_next ≠ pn.next then feFrom fuel s prev pn.next skip acc
          else
            match s.heap c with
            | none => none
            | some cnd =>
              if cnd.next.is_marked then
                match casNext s prev prev_next cnd.next.to_unmarked with
                | none => none
                | some (s1, ok) =>
                  if ok then feFrom fuel s1 prev cnd.next.to_unmarked skip acc
                  else
                    match s1.heap prev with
                    | none => none
                    | some pn1 => feFrom fuel s1 prev pn1.next skip acc
              else
                match skip with
                | some sk =>
                  match s.heap sk with
                  | none => none
                  | some sknd =>
                    if sknd.key < cnd.key then
                      feFrom fuel s c cnd.next none
                        (acc ++ [(cnd.key, cnd.value)])
                    else feFrom fuel s c cnd.next skip acc
                | none =>
                  feFrom fuel s c cnd.next none (acc ++ [(cnd.key, cnd.value)])

/-- `SortedListMap::forEach`: start at the sentinel with no skip node. -/
def forEachOp (s : LState) : Option (LState × List (Nat × Nat)) :=
  match s.heap 0 with
  | none => none
  | some hd => feFrom (s.fresh + 2) s 0 hd.next none []

inductive LOp where
  | get (k : Nat)
  | put (k v : Nat)
  | remove (k : Nat)
  | iter
deriving DecidableEq, Repr

inductive LOut where
  | res (b : Bool) (out : Option Nat)
  | iter (l : List (Nat × Nat))
deriving DecidableEq, Repr

/-- Run a sequence of map operations sequentially from a state,
collecting each operation's result. -/
def lRunAux : List LOp → LState → Option (LState × List LOut)
  | [], s => some (s, [])
  | LOp.get k :: ops, s =>
    match getOp s k with
    | none => none
    | some (s1, b, out) =>
      (lRunAux ops s1).map (fun r => (r.1, LOut.res b out :: r.2))
  | LOp.put k v :: ops, s =>
    match putOp s k v with
    | none => none
    | some (s1, b, out) =>
      (lRunAux ops s1).map (fun r => (r.1, LOut.res b out :: r.2))
  | LOp.remove k :: ops, s =>
    match removeOp s k with
    | none => none
    | some (s1, b, out) =>
      (lRunAux ops s1).map (fun r => (r.1, LOut.res b out :: r.2))
  | LOp.iter :: ops, s =>
    match forEachOp s with
    | none => none
    | some (s1, l) =>
      (lRunAux ops s1).map (fun r => (r.1, LOut.iter l :: r.2))

def lRun (ops : List LOp) : Option (LState × List LOut) :=
  lRunAux ops lInit

def lRunOuts (ops : List LOp) : Option (List LOut) :=
  (lRun ops).map Prod.snd

/-! ### Reference model: a sorted association list. -/

def refLookup : List (Nat × Nat) → Nat → Option Nat
  | [], _ => none
  | (k, v) :: t, k1 => if k1 = k then some v else refLookup t k1

def refInsert : List (Nat × Nat) → Nat → Nat → List (Nat × Nat)
  | [], k, v => [(k, v)]
  | (k1, v1) :: t, k, v =>
    if k < k1 then (k, v) :: (k1, v1) :: t
    else if k = k1 then (k, v) :: t
    else (k1, v1) :: refInsert t k v

def refErase : List (Nat × Nat) → Nat → List (Nat × Nat)
  | [], _ => []
  | (k1, v1) :: t, k => if k = k1 then t else (k1, v1) :: refErase t k

/-- The reference results of a run: `get`/`put`/`remove` report presence
and the previously mapped value; `iter` reports the sorted pairs. -/
def refLRun : List LOp → List (Nat × Nat) → List LOut
  | [], _ => []
  | LOp.get k :: ops, m =>
    LOut.res (refLookup m k).isSome (refLookup m k) :: refLRun ops m
  | LOp.put k v :: ops, m =>
    LOut.res (refLookup m k).isSome (refLookup m k)
      :: refLRun ops (refInsert m k v)
  | LOp.remove k :: ops, m =>
    LOut.res (refLookup m k).isSome (refLookup m k)
      :: refLRun ops (refErase m k)
  | LOp.iter :: ops, m => LOut.iter m :: refLRun ops m

/-- The reference map contents after a run. -/
def refLFinal : List LOp → List (Nat × Nat) → List (Nat × Nat)
  | [], m => m
  | LOp.get _ :: ops, m => refLFinal ops m
  | LOp.put k v :: ops, m => refLFinal ops (refInsert m k v)
  | LOp.remove k :: ops, m => refLFinal ops (refErase m k)
  | LOp.iter :: ops, m => refLFinal ops m

/-- A segment of the list: from node `a`, following unmarked links, the
addresses `l` are visited and the walk ends at `z` (the last of
`a :: l`). -/
inductive LSeg (heap : HeapL) : Addr → List Addr → Addr → Prop
  | nil : ∀ {a : Addr}, LSeg heap a [] a
  | cons : ∀ {a : Addr} {n : MNode} {b : Addr} {rest : List Addr} {z : Addr},
      heap a = some n → n.next = MPtr.ofPtr (some b) → LSeg heap b rest z →
      LSeg heap a (b :: rest) z

/-- Node `a` is allocated and stores the pair `kv`. -/
def pairRel (heap : HeapL) (a : Addr) (kv : Nat × Nat) : Prop :=
  ∃ n : MNode, heap a = some n ∧ n.key = kv.1 ∧ n.value = kv.2

/-- The sequential list-map invariant: the chain from the sentinel visits
`addrs`, ends in a null-next node `z`, carries exactly the pairs of the
reference map `m`, with strictly increasing keys; chain addresses are
bounded by `fresh`, distinct, and everything at or above `fresh` is
unallocated. -/
def LInv (s : LState) (m : List (Nat × Nat)) : Prop :=
  ∃ (addrs : List Addr) (z : Addr) (zn : MNode),
    LSeg s.heap 0 addrs z ∧ s.heap z = some zn ∧ zn.next = MPtr.null ∧
    List.Forall₂ (pairRel s.heap) addrs m ∧
    List.Pairwise (fun x y => x.1 < y.1) m ∧
    (∀ a ∈ 0 :: addrs, a < s.fresh) ∧
    (0 :: addrs).Nodup ∧
    (∀ a : Addr, s.fresh ≤ a → s.heap a = none)

theorem mem_dedupAdj {a : Addr} : ∀ {l : List Addr}, a ∈ dedupAdj l ↔ a ∈ l
  | [] => Iff.rfl
  | [b] => Iff.rfl
  | b :: c :: t => by
    by_cases h : b = c
    · subst h
      have hd : dedupAdj (b :: b :: t) = dedupAdj (b :: t) := by
        simp [dedupAdj]
      rw [hd, mem_dedupAdj (l := b :: t)]
      simp
    · simp only [dedupAdj, if_neg h, List.mem_cons]
      rw [mem_dedupAdj (l := c :: t)]
      simp

theorem mem_scanHp {a : Addr} {hps : List (Option Addr)} :
    a ∈ scanHp hps ↔ some a ∈ hps := by
  unfold scanHp
  by_cases h : (hps.filterMap id).isEmpty
  · simp only [h, if_pos]
    simp only [List.isEmpty_iff] at h
    constructor
    · intro ha; simp [h] at ha
    · intro ha
      have : a ∈ hps.filterMap id := by
        simp only [List.mem_filterMap, id]
        exact ⟨some a, ha, rfl⟩
      rw [h] at this; exact absurd this (List.not_mem_nil a)
  · simp only [h, if_neg, Bool.false_eq_true, not_false_iff]
    rw [mem_dedupAdj]
    rw [(List.perm_insertionSort (· ≤ ·) (hps.filterMap id)).mem_iff]
    simp only [List.mem_filterMap, id]
    constructor
    · rintro ⟨o, ho, rfl⟩; exact ho
    · intro ha; exact ⟨some a, ha, rfl⟩

theorem removeAndDelete_eq (scaned : List Addr) (retired : List RItem) :
    removeAndDelete scaned retired =
      (retired.filter (fun it => decide (it.object ∈ scaned)),
       retired.filter (fun it => !decide (it.object ∈ scaned))) := by
  induction retired with
  | nil => rfl
  | cons it rest ih =>
    simp only [removeAndDelete, ih, List.filter]
    by_cases h : it.object ∈ scaned <;> simp [h]

theorem deleteItems_eq (scaned : List Addr) (retired : List RItem) :
    deleteItems scaned retired =
      (retired.filter (fun it => decide (it.object ∈ scaned)),
       retired.filter (fun it => !decide (it.object ∈ scaned))) := by
  unfold deleteItems
  by_cases he : scaned.isEmpty
  · have hnil : scaned = [] := List.isEmpty_iff.mp he
    subst hnil
    simp
  · rw [if_neg (by simpa using he)]
    exact removeAndDelete_eq _ _

theorem count_filter_add_bnot {α : Type} [DecidableEq α] (p : α → Bool)
    (l : List α) (a : α) :
    (l.filter (fun x => !p x)).count a + (l.filter p).count a = l.count a := by
  induction l with
  | nil => simp
  | cons hd tl ih =>
    by_cases hp : p hd
    · have e1 : List.filter (fun x => !p x) (hd :: tl)
          = List.filter (fun x => !p x) tl := by
        simp [List.filter_cons, hp]
      have e2 : List.filter p (hd :: tl) = hd :: List.filter p tl := by
        simp [List.filter_cons, hp]
      rw [e1, e2]
      rcases eq_or_ne a hd with rfl | hne
      · rw [List.count_cons_self, List.count_cons_self]
        omega
      · rw [List.count_cons_of_ne hne, List.count_cons_of_ne hne]
        omega
    · have e1 : List.filter (fun x => !p x) (hd :: tl)
          = hd :: List.filter (fun x => !p x) tl := by
        simp [List.filter_cons, hp]
      have e2 : List.filter p (hd :: tl) = List.filter p tl := by
        simp [List.filter_cons, hp]
      rw [e1, e2]
      rcases eq_or_ne a hd with rfl | hne
      · rw [List.count_cons_self, List.count_cons_self]
        omega
      · rw [List.count_cons_of_ne hne, List.count_cons_of_ne hne]
        omega

/-- C1: `flushRetired`, run sequentially over any retirement queue and any
hazard-slot contents, partitions the queue exactly: items whose object
address occurs among the non-null collected hazard values are kept
unchanged, every other item has its deleter invoked exactly once (it
appears once in the deletion log) and is removed; when no non-null hazard
value is collected, every item is deleted and the queue empties. -/
theorem C1_flush_partition (hps : List (Option Addr)) (retired : List RItem) :
    (flushRetired hps retired).1
        = retired.filter (fun it => decide (some it.object ∈ hps)) ∧
    (flushRetired hps retired).2
        = retired.filter (fun it => !decide (some it.object ∈ hps)) ∧
    (∀ it : RItem, (flushRetired hps retired).2.count it
        + (flushRetired hps retired).1.count it = retired.count it) ∧
    (hps.filterMap id = [] →
      (flushRetired hps retired).1 = [] ∧
      (flushRetired hps retired).2 = retired) := by
  have hmem : ∀ it : RItem,
      decide (it.object ∈ scanHp hps) = decide (some it.object ∈ hps) := by
    intro it
    simp only [decide_eq_decide]
    exact mem_scanHp
  have h1 : (flushRetired hps retired).1
      = retired.filter (fun it => decide (some it.object ∈ hps)) := by
    unfold flushRetired
    rw [deleteItems_eq]
    exact List.filter_congr (fun a _ => hmem a)
  have h2 : (flushRetired hps retired).2
      = retired.filter (fun it => !decide (some it.object ∈ hps)) := by
    unfold flushRetired
    rw [deleteItems_eq]
    refine List.filter_congr (fun a _ => ?_)
    rw [hmem a]
  refine ⟨h1, h2, ?_, ?_⟩
  · intro it
    rw [h1, h2]
    exact count_filter_add_bnot _ retired it
  · intro hnone
    have hpred : ∀ it : RItem, ¬ (some it.object ∈ hps) := by
      intro it hin
      have hmemf : it.object ∈ hps.filterMap id := by
        simp only [List.mem_filterMap, id]
        exact ⟨some it.object, hin, rfl⟩
      rw [hnone] at hmemf
      exact absurd hmemf (List.not_mem_nil _)
    constructor
    · rw [h1, List.filter_eq_nil_iff]
      intro a _
      simp [hpred a]
    · rw [h2, List.filter_eq_self]
      intro a _
      simp [hpred a]

/-- Witness for C1 at `hps = [none]`, `retired = [{object := 3}]`: the
collected set is empty, so the single item is deleted. -/
theorem C1_flush_partition_witness :
    (flushRetired [none] [⟨3⟩]).1 = [] ∧
    (flushRetired [none] [⟨3⟩]).2 = [⟨3⟩] :=
  (C1_flush_partition [none] [⟨3⟩]).2.2.2 (by decide)

/-- C2 counterexample: with an empty scanned set and the retirement queue
`[{object 1, deleter raises}, {object 2, deleter returns}]`, the flush
does not catch the failure: the run aborts with the exception escaping
(first component `none`) and the deleter of the remaining item, object 2,
is never invoked — its address is absent from the invocation log. -/
theorem C2_deleter_failure_counterexample :
    deleteItemsE [] [⟨1, true⟩, ⟨2, false⟩] = (none, [1]) ∧
    (2 : Addr) ∉ (deleteItemsE [] [⟨1, true⟩, ⟨2, false⟩]).2 := by
  decide

theorem deleteAllE_fail (pre post : List RItemE) (it : RItemE)
    (hpre : ∀ j ∈ pre, j.dfail = false) (hf : it.dfail = true) :
    deleteAllE (pre ++ it :: post) = (none, pre.map RItemE.object ++ [it.object]) := by
  induction pre with
  | nil => simp [deleteAllE, hf]
  | cons j rest ih =>
    have hj : j.dfail = false := hpre j (by simp)
    have ihr := ih (fun x hx => hpre x (by simp [hx]))
    simp [deleteAllE, hj, ihr]

theorem removeAndDeleteE_fail (scaned : List Addr) (pre post : List RItemE)
    (it : RItemE) (hpre : ∀ j ∈ pre, j.object ∉ scaned → j.dfail = false)
    (hitmem : it.object ∉ scaned) (hf : it.dfail = true) :
    removeAndDeleteE scaned (pre ++ it :: post)
      = (none,
         (pre.filter (fun j => !decide (j.object ∈ scaned))).map RItemE.object
           ++ [it.object]) := by
  induction pre with
  | nil => simp [removeAndDeleteE, hitmem, hf]
  | cons j rest ih =>
    have ihr := ih (fun x hx hxm => hpre x (by simp [hx]) hxm)
    by_cases hj : j.object ∈ scaned
    · simp [removeAndDeleteE, hj, ihr, List.filter_cons]
    · have hjf : j.dfail = false := hpre j (by simp) hj
      simp [removeAndDeleteE, hj, hjf, ihr, List.filter_cons]

/-- C2 as amended: a deleter failure during flush is not caught.  The
exception propagates out of `deleteItems` at the first retired item that
is due for deletion and whose deleter raises: the deleters of the
earlier items due for deletion have been invoked, the failing item's
deleter invocation is the last one logged, no later item is processed,
and the queue's `erase` is never reached (the run aborts). -/
theorem C2_deleter_failure_amended (scaned : List Addr) (pre post : List RItemE)
    (it : RItemE)
    (hpre : ∀ j ∈ pre, toDeleteE scaned j = true → j.dfail = false)
    (hit : toDeleteE scaned it = true) (hf : it.dfail = true) :
    deleteItemsE scaned (pre ++ it :: post)
      = (none,
         (pre.filter (toDeleteE scaned)).map RItemE.object ++ [it.object]) := by
  unfold deleteItemsE
  by_cases he : scaned.isEmpty
  · have hpre' : ∀ j ∈ pre, j.dfail = false := by
      intro j hj
      exact hpre j hj (by simp [toDeleteE, he])
    have hfilter : pre.filter (toDeleteE scaned) = pre :=
      List.filter_eq_self.mpr (fun j _ => by simp [toDeleteE, he])
    rw [if_pos he, deleteAllE_fail pre post it hpre' hf, hfilter]
    simp
  · have hpre' : ∀ j ∈ pre, j.object ∉ scaned → j.dfail = false := by
      intro j hj hjm
      exact hpre j hj (by simp [toDeleteE, he, hjm])
    have hitm : it.object ∉ scaned := by
      unfold toDeleteE at hit
      rw [if_neg he] at hit
      simpa using hit
    have hfilter : pre.filter (toDeleteE scaned)
        = pre.filter (fun j => !decide (j.object ∈ scaned)) :=
      List.filter_congr (fun j _ => by simp [toDeleteE, he])
    rw [if_neg he, removeAndDeleteE_fail scaned pre post it hpre' hitm hf,
        hfilter]

/-- Witness for C2's amended statement: scanned set empty, one healthy
item before the failing one. -/
theorem C2_deleter_failure_amended_witness :
    deleteItemsE [] [⟨5, false⟩, ⟨1, true⟩] = (none, [5, 1]) := by
  have h := C2_deleter_failure_amended [] [⟨5, false⟩] [] ⟨1, true⟩
    (by decide) (by decide) rfl
  simpa using h

/-- C8: requesting more hazard slots than the per-record capacity fails
only by the debug assertion in `allocateHpArray` (modelled as `none`),
and with the default capacity of 3 that assertion is unreachable for the
library's own operations: running the hazard-slot reservation events of
every public operation from an idle record never fails and returns the
record to idle. -/
theorem C8_slot_capacity :
    (∀ used n : Nat, HAZARD_PTR_SIZE < used + n →
      allocateHpArray used n = none) ∧
    (∀ op : LibOp, runHpEvents 0 (hpEvents op) = some 0) := by
  constructor
  · intro used n h
    unfold allocateHpArray
    rw [if_neg (by omega)]
  · intro op
    cases op <;> rfl

/-- Witness for C8: over-requesting fails; `forEach`'s three slots pass. -/
theorem C8_slot_capacity_witness :
    allocateHpArray 3 1 = none ∧
    runHpEvents 0 (hpEvents LibOp.mapForEach) = some 0 :=
  ⟨C8_slot_capacity.1 3 1 (by decide), C8_slot_capacity.2 LibOp.mapForEach⟩

/-- C9: retiring a hazard_ptr that holds a null pointer is a no-op on the
retirement queue: `addRetired` returns immediately for a null object, so
nothing is appended, no deleter is invoked and no flush is triggered; the
hazard slot is still cleared. -/
theorem C9_retire_null (hps : List (Option Addr)) (slot : HpSlot)
    (retired : List RItem) (h : slot.ptr = none) :
    hpRetire hps slot retired = (⟨none, none⟩, retired, [], false) := by
  unfold hpRetire addRetired
  rw [h]

/-- Witness for C9 at a slot whose published value is stale but whose
local pointer is null. -/
theorem C9_retire_null_witness :
    hpRetire [some 1] ⟨some 7, none⟩ [⟨1⟩] = (⟨none, none⟩, [⟨1⟩], [], false) :=
  C9_retire_null [some 1] ⟨some 7, none⟩ [⟨1⟩] rfl

/-- C10: `markable_ptr`'s boolean conversion is true exactly when the
packed word differs from the unmarked null pointer; a marked null
converts to true; and on an unmarked value — the only shape the list
traversals test after checking `is_marked` — the conversion is a plain
null-pointer test. -/
theorem C10_markable_bool :
    (∀ x : MPtr, x.toBool = true ↔ x ≠ MPtr.null) ∧
    MPtr.toBool ⟨none, true⟩ = true ∧
    (∀ x : MPtr, x.mark = false → (x.toBool = false ↔ x.p = none)) := by
  refine ⟨?_, by decide, ?_⟩
  · intro x
    simp [MPtr.toBool]
  · intro x h
    obtain ⟨p, m⟩ := x
    cases m
    · cases p <;> simp [MPtr.toBool, MPtr.null]
    · simp at h

/-- Witness for C10 at the unmarked null word. -/
theorem C10_markable_bool_witness :
    (MPtr.toBool ⟨none, false⟩ = false ↔ (⟨none, false⟩ : MPtr).p = none) :=
  C10_markable_bool.2.2 ⟨none, false⟩ rfl

theorem mem_of_getLast?_eq {α : Type} :
    ∀ {l : List α} {a : α}, l.getLast? = some a → a ∈ l
  | [], _, h => by simp [List.getLast?] at h
  | [b], a, h => by
    simp [List.getLast?] at h
    simp [h]
  | b :: c :: t, a, h => by
    rw [List.getLast?_cons_cons] at h
    exact List.mem_cons_of_mem b (mem_of_getLast?_eq h)

theorem getLast?_cons_append_singleton {α : Type} (a b : α) :
    ∀ l : List α, (a :: (l ++ [b])).getLast? = some b
  | [] => rfl
  | c :: t => by
    rw [List.cons_append, List.getLast?_cons_cons]
    exact getLast?_cons_append_singleton c b t

theorem forall₂_imp_mem {α β : Type} {R S : α → β → Prop} :
    ∀ {l₁ : List α} {l₂ : List β}, List.Forall₂ R l₁ l₂ →
      (∀ a b, a ∈ l₁ → R a b → S a b) → List.Forall₂ S l₁ l₂ := by
  intro l₁ l₂ h
  induction h with
  | nil => intro _; exact List.Forall₂.nil
  | cons hab _ ih =>
    intro himp
    exact List.Forall₂.cons (himp _ _ (by simp) hab)
      (ih (fun a b ha => himp a b (by simp [ha])))

theorem forall₂_append_singleton {α β : Type} {R : α → β → Prop}
    {l₁ : List α} {l₂ : List β} {a : α} {b : β}
    (h : List.Forall₂ R l₁ l₂) (hab : R a b) :
    List.Forall₂ R (l₁ ++ [a]) (l₂ ++ [b]) := by
  induction h with
  | nil => exact List.Forall₂.cons hab List.Forall₂.nil
  | cons hxy _ ih => exact List.Forall₂.cons hxy ih

theorem ChainQ_mem_heap {H : HeapQ} :
    ∀ {a : Addr} {l : List Addr}, ChainQ H a l →
      ∀ x ∈ a :: l, ∃ n : NodeQ, H x = some n := by
  intro a l h
  induction h with
  | nil ha _ =>
    intro x hx
    rw [List.mem_singleton] at hx
    exact hx ▸ ⟨_, ha⟩
  | cons ha _ _ ih =>
    intro x hx
    rcases List.mem_cons.mp hx with rfl | hx'
    · exact ⟨_, ha⟩
    · exact ih x hx'

theorem ChainQ_last {H : HeapQ} :
    ∀ {a : Addr} {l : List Addr} {t : Addr}, ChainQ H a l →
      (a :: l).getLast? = some t →
      ∃ n : NodeQ, H t = some n ∧ n.next = none := by
  intro a l t h
  induction h generalizing t with
  | nil ha hn =>
    intro hlast
    simp [List.getLast?] at hlast
    exact hlast ▸ ⟨_, ha, hn⟩
  | cons _ _ _ ih =>
    intro hlast
    rw [List.getLast?_cons_cons] at hlast
    exact ih hlast

theorem ChainQ_snoc {H H' : HeapQ} {b : Addr} :
    ∀ {a : Addr} {l : List Addr} {t : Addr},
      ChainQ H a l → (a :: l).Nodup → (a :: l).getLast? = some t →
      (∀ x ∈ a :: l, x ≠ t → H' x = H x) →
      (∃ w : Option Nat, H' t = some ⟨some b, w⟩) →
      (∃ nb : NodeQ, H' b = some nb ∧ nb.next = none) →
      ChainQ H' a (l ++ [b]) := by
  intro a l t h
  induction h generalizing t with
  | nil ha hn =>
    intro _ hlast _ hT hB
    simp [List.getLast?] at hlast
    subst hlast
    obtain ⟨w, hw⟩ := hT
    obtain ⟨nb, hnb, hnbn⟩ := hB
    exact ChainQ.cons hw rfl (ChainQ.nil hnb hnbn)
  | @cons a n c rest ha hnext hrest ih =>
    intro hnd hlast hsame hT hB
    rw [List.getLast?_cons_cons] at hlast
    have htc : t ∈ c :: rest := mem_of_getLast?_eq hlast
    have hat : a ≠ t := by
      intro hEq
      subst hEq
      exact (List.nodup_cons.mp hnd).1 htc
    have ha' : H' a = some n := (hsame a (by simp) hat).trans ha
    exact ChainQ.cons ha' hnext
      (ih (List.nodup_cons.mp hnd).2 hlast
        (fun x hx hxt => hsame x (by simp [hx]) hxt) hT hB)

theorem ChainQ_congr {H H' : HeapQ} :
    ∀ {a : Addr} {l : List Addr}, ChainQ H a l →
      (∀ x ∈ a :: l, H' x = H x) → ChainQ H' a l := by
  intro a l h
  induction h with
  | nil ha hn =>
    intro hsame
    exact ChainQ.nil ((hsame _ (by simp)).trans ha) hn
  | cons ha hnext _ ih =>
    intro hsame
    exact ChainQ.cons ((hsame _ (by simp)).trans ha) hnext
      (ih (fun x hx => hsame x (by simp [hx])))

theorem ChainQ_update_val {H : HeapQ} {c : Addr} {nn : NodeQ}
    (hc : H c = some nn) (w : Option Nat) :
    ∀ {a : Addr} {l : List Addr}, ChainQ H a l →
      ChainQ (updateQ H c ⟨nn.next, w⟩) a l := by
  intro a l h
  induction h with
  | @nil a n ha hn =>
    by_cases hac : a = c
    · subst hac
      refine ChainQ.nil (n := ⟨nn.next, w⟩) ?_ ?_
      · unfold updateQ
        rw [if_pos rfl]
      · rw [ha] at hc
        cases hc
        exact hn
    · refine ChainQ.nil (n := n) ?_ hn
      unfold updateQ
      rw [if_neg hac]
      exact ha
  | @cons a n b rest ha hnext _ ih =>
    by_cases hac : a = c
    · subst hac
      refine ChainQ.cons (n := ⟨nn.next, w⟩) ?_ ?_ ih
      · unfold updateQ
        rw [if_pos rfl]
      · rw [ha] at hc
        cases hc
        exact hnext
    · refine ChainQ.cons (n := n) ?_ hnext ih
      unfold updateQ
      rw [if_neg hac]
      exact ha

theorem updateQ_self (h : HeapQ) (a : Addr) (n : NodeQ) :
    updateQ h a n a = some n := by
  simp [updateQ]

theorem updateQ_ne (h : HeapQ) {x a : Addr} (n : NodeQ) (hx : x ≠ a) :
    updateQ h a n x = h x := by
  simp [updateQ, hx]

theorem qEnqueue_spec {s : QState} {vs : List Nat} (h : QInv s vs) (v : Nat) :
    ∀ {fuel : Nat}, 1 ≤ fuel →
      ∃ s', qEnqueue fuel s v = some s' ∧ QInv s' (vs ++ [v]) := by
  intro fuel hf
  obtain ⟨addrs, hch, hvals, hlast, hlt, hnd, hn0, hh0, hv0⟩ := h
  obtain ⟨k, rfl⟩ : ∃ k, fuel = k + 1 := ⟨fuel - 1, by omega⟩
  have htmem : s.tail ∈ s.head :: addrs := mem_of_getLast?_eq hlast
  have htlt : s.tail < s.fresh := hlt _ htmem
  obtain ⟨tn, htn, htnn⟩ := ChainQ_last hch hlast
  have htf : s.tail ≠ s.fresh := Nat.ne_of_lt htlt
  have hft : s.fresh ≠ s.tail := Ne.symm htf
  have h1t : updateQ s.heap s.fresh ⟨none, some v⟩ s.tail = some tn := by
    rw [updateQ_ne _ _ htf]
    exact htn
  refine ⟨{ s with
      heap := updateQ (updateQ s.heap s.fresh ⟨none, some v⟩) s.tail
        ⟨some s.fresh, tn.val⟩,
      tail := s.fresh, fresh := s.fresh + 1 }, ?_, ?_⟩
  · unfold qEnqueue enqueueLoop
    simp only [h1t, htnn]
  · refine ⟨addrs ++ [s.fresh], ?_, ?_, ?_, ?_, ?_, ?_⟩
    · show ChainQ (updateQ (updateQ s.heap s.fresh ⟨none, some v⟩) s.tail
        ⟨some s.fresh, tn.val⟩) s.head (addrs ++ [s.fresh])
      refine ChainQ_snoc hch hnd hlast ?_ ⟨tn.val, ?_⟩ ?_
      · intro x hx hxt
        have hxlt : x < s.fresh := hlt x hx
        rw [updateQ_ne _ _ hxt, updateQ_ne _ _ (Nat.ne_of_lt hxlt)]
      · exact updateQ_self _ _ _
      · refine ⟨⟨none, some v⟩, ?_, rfl⟩
        rw [updateQ_ne _ _ hft]
        exact updateQ_self _ _ _
    · show List.Forall₂
        (valRel (updateQ (updateQ s.heap s.fresh ⟨none, some v⟩) s.tail
          ⟨some s.fresh, tn.val⟩)) (addrs ++ [s.fresh]) (vs ++ [v])
      refine forall₂_append_singleton ?_ ?_
      · refine forall₂_imp_mem hvals ?_
        intro a w ha hrel
        obtain ⟨n, hn, hnv⟩ := hrel
        have halt : a < s.fresh := hlt a (by simp [ha])
        by_cases hat : a = s.tail
        · subst hat
          refine ⟨⟨some s.fresh, tn.val⟩, updateQ_self _ _ _, ?_⟩
          rw [htn] at hn
          cases hn
          exact hnv
        · refine ⟨n, ?_, hnv⟩
          rw [updateQ_ne _ _ hat, updateQ_ne _ _ (Nat.ne_of_lt halt)]
          exact hn
      · refine ⟨⟨none, some v⟩, ?_, rfl⟩
        rw [updateQ_ne _ _ hft]
        exact updateQ_self _ _ _
    · show (s.head :: (addrs ++ [s.fresh])).getLast? = some s.fresh
      exact getLast?_cons_append_singleton _ _ _
    · show ∀ a ∈ s.head :: (addrs ++ [s.fresh]), a < s.fresh + 1
      intro a ha
      have hsplit : a = s.head ∨ a ∈ addrs ∨ a = s.fresh := by
        simpa using ha
      rcases hsplit with rfl | hmem | rfl
      · exact Nat.lt_succ_of_lt (hlt s.head (by simp))
      · exact Nat.lt_succ_of_lt (hlt a (by simp [hmem]))
      · exact Nat.lt_succ_self _
    · show (s.head :: (addrs ++ [s.fresh])).Nodup
      have hshape : s.head :: (addrs ++ [s.fresh])
          = (s.head :: addrs) ++ [s.fresh] := by
        simp
      rw [hshape, List.nodup_append]
      refine ⟨hnd, by simp, ?_⟩
      intro x hx
      have := hlt x hx
      simp only [List.mem_singleton]
      exact Nat.ne_of_lt this
    · show ∃ hn : NodeQ,
        updateQ (updateQ s.heap s.fresh ⟨none, some v⟩) s.tail
          ⟨some s.fresh, tn.val⟩ s.head = some hn ∧ hn.val = none
      by_cases hht : s.head = s.tail
      · refine ⟨⟨some s.fresh, tn.val⟩, ?_, ?_⟩
        · rw [hht]
          exact updateQ_self _ _ _
        · rw [hht, htn] at hh0
          cases hh0
          exact hv0
      · refine ⟨hn0, ?_, hv0⟩
        have hhlt : s.head < s.fresh := hlt _ (by simp)
        rw [updateQ_ne _ _ hht, updateQ_ne _ _ (Nat.ne_of_lt hhlt)]
        exact hh0

theorem qDequeue_empty {s : QState} (h : QInv s []) :
    qDequeue s = some (s, none) := by
  obtain ⟨addrs, hch, hvals, _, _, _, _⟩ := h
  have haddrs : addrs = [] := by
    cases hvals
    rfl
  subst haddrs
  cases hch with
  | nil ha hn =>
    unfold qDequeue
    simp only [ha, hn]

theorem qDequeue_cons {s : QState} {v : Nat} {vs : List Nat}
    (h : QInv s (v :: vs)) :
    ∃ s', qDequeue s = some (s', some v) ∧ QInv s' vs := by
  obtain ⟨addrs, hch, hvals, hlast, hlt, hnd, hn0, hh0, hv0⟩ := h
  obtain ⟨nx, arest, rfl, hrelx, hrels⟩ :
      ∃ nx arest, addrs = nx :: arest ∧ valRel s.heap nx v ∧
        List.Forall₂ (valRel s.heap) arest vs := by
    cases hvals with
    | cons hab hrest => exact ⟨_, _, rfl, hab, hrest⟩
  cases hch with
  | cons ha hnext hrest =>
    rename_i hn
    have hhn : hn = hn0 := by
      rw [ha] at hh0
      cases hh0
      rfl
    obtain ⟨nn, hnn, hnnv⟩ := hrelx
    have hhead_ne_tail : s.head ≠ s.tail := by
      intro hEq
      have htmem : s.tail ∈ nx :: arest := by
        rw [List.getLast?_cons_cons] at hlast
        exact mem_of_getLast?_eq hlast
      rw [← hEq] at htmem
      exact (List.nodup_cons.mp hnd).1 htmem
    refine ⟨{ s with
        head := nx
        heap := updateQ s.heap nx ⟨nn.next, none⟩ }, ?_, ?_⟩
    · unfold qDequeue
      simp only [ha, hnext, if_neg hhead_ne_tail, hnn, hnnv]
    · refine ⟨arest, ?_, ?_, ?_, ?_, ?_, ?_⟩
      · show ChainQ (updateQ s.heap nx ⟨nn.next, none⟩) nx arest
        exact ChainQ_update_val hnn none hrest
      · show List.Forall₂ (valRel (updateQ s.heap nx ⟨nn.next, none⟩))
          arest vs
        refine forall₂_imp_mem hrels ?_
        intro a w hamem hrel
        obtain ⟨n, hn', hnv'⟩ := hrel
        have hanx : a ≠ nx := by
          intro hEq
          subst hEq
          have := (List.nodup_cons.mp (List.nodup_cons.mp hnd).2).1
          exact this hamem
        refine ⟨n, ?_, hnv'⟩
        rw [updateQ_ne _ _ hanx]
        exact hn'
      · show (nx :: arest).getLast? = some s.tail
        rw [List.getLast?_cons_cons] at hlast
        exact hlast
      · show ∀ a ∈ nx :: arest, a < s.fresh
        intro a ha'
        exact hlt a (by simp [List.mem_cons.mp ha'])
      · show (nx :: arest).Nodup
        exact (List.nodup_cons.mp hnd).2
      · show ∃ hd : NodeQ,
          updateQ s.heap nx ⟨nn.next, none⟩ nx = some hd ∧ hd.val = none
        exact ⟨⟨nn.next, none⟩, updateQ_self _ _ _, rfl⟩

theorem qInit_inv : QInv qInit [] := by
  refine ⟨[], ChainQ.nil (n := ⟨none, none⟩) rfl rfl, List.Forall₂.nil,
    rfl, ?_, by simp, ⟨none, none⟩, rfl, rfl⟩
  intro a ha
  rw [List.mem_singleton] at ha
  subst ha
  exact Nat.zero_lt_one

theorem qRunAux_spec :
    ∀ (ops : List QOp) (s : QState) (vs : List Nat), QInv s vs →
      ∃ s', qRunAux ops s = some (s', refQRun ops vs) ∧
        QInv s' (refQFinal ops vs) := by
  intro ops
  induction ops with
  | nil => exact fun s vs h => ⟨s, rfl, h⟩
  | cons op ops ih =>
    intro s vs h
    cases op with
    | enq v =>
      obtain ⟨s₁, henq, hinv₁⟩ := qEnqueue_spec h v
        (show (1 : Nat) ≤ s.fresh + 1 by omega)
      obtain ⟨s', hrun, hinv'⟩ := ih s₁ (vs ++ [v]) hinv₁
      exact ⟨s', by simp only [qRunAux, henq, hrun, refQRun], hinv'⟩
    | deq =>
      cases vs with
      | nil =>
        have hdq := qDequeue_empty h
        obtain ⟨s', hrun, hinv'⟩ := ih s [] h
        exact ⟨s', by simp only [qRunAux, hdq, hrun, refQRun], hinv'⟩
      | cons v rest =>
        obtain ⟨s₁, hdq, hinv₁⟩ := qDequeue_cons h
        obtain ⟨s', hrun, hinv'⟩ := ih s₁ rest hinv₁
        exact ⟨s', by simp only [qRunAux, hdq, hrun, refQRun], hinv'⟩

/-- C3: sequentially, the queue is the reference FIFO queue.  The smoke
scenario: from empty, enqueue 1, 2, 3, then four dequeues yield
`(true,1), (true,2), (true,3), false`; in general every sequence of
enqueue/dequeue operations produces exactly the dequeue results of the
reference queue — values come out in enqueue order, and dequeue returns
false exactly when the reference queue is empty. -/
theorem C3_queue_fifo :
    qRunOuts [QOp.enq 1, QOp.enq 2, QOp.enq 3,
              QOp.deq, QOp.deq, QOp.deq, QOp.deq]
      = some [some 1, some 2, some 3, none] ∧
    ∀ ops : List QOp, qRunOuts ops = some (refQRun ops []) := by
  have hgen : ∀ ops : List QOp, qRunOuts ops = some (refQRun ops []) := by
    intro ops
    obtain ⟨s', hrun, _⟩ := qRunAux_spec ops qInit [] qInit_inv
    unfold qRunOuts qRun
    rw [hrun]
    rfl
  refine ⟨?_, hgen⟩
  rw [hgen]
  rfl

/-- C7: after any sequence of sequential enqueue/dequeue operations from
a fresh queue, the run succeeds and the final state satisfies the queue
invariants — `head_` and `tail_` point to allocated nodes, `head_` is a
dummy node with no constructed value, the chain of nodes after the dummy
holds exactly the queued values in order, and `tail_` is the last node of
the chain (hence at most one link behind it, and already caught up for
the next operation). -/
theorem C7_queue_invariants :
    ∀ ops : List QOp,
      ∃ (s : QState) (outs : List (Option Nat)) (addrs : List Addr),
        qRun ops = some (s, outs) ∧
        (∃ hn : NodeQ, s.heap s.head = some hn ∧ hn.val = none) ∧
        (∃ tn : NodeQ, s.heap s.tail = some tn) ∧
        ChainQ s.heap s.head addrs ∧
        List.Forall₂ (valRel s.heap) addrs (refQFinal ops []) ∧
        (s.head :: addrs).getLast? = some s.tail := by
  intro ops
  obtain ⟨s, hrun, hinv⟩ := qRunAux_spec ops qInit [] qInit_inv
  obtain ⟨addrs, hch, hvals, hlast, hlt, hnd, hdn, hdh, hdv⟩ := hinv
  refine ⟨s, refQRun ops [], addrs, hrun, ⟨hdn, hdh, hdv⟩, ?_, hch, hvals,
    hlast⟩
  exact ChainQ_mem_heap hch s.tail (mem_of_getLast?_eq hlast)

theorem updateL_self (h : HeapL) (a : Addr) (n : MNode) :
    updateL h a n a = some n := by
  simp [updateL]

theorem updateL_ne (h : HeapL) {x a : Addr} (n : MNode) (hx : x ≠ a) :
    updateL h a n x = h x := by
  simp [updateL, hx]

theorem MPtr.is_marked_null : MPtr.is_marked MPtr.null = false := rfl

theorem MPtr.toBool_null : MPtr.toBool MPtr.null = false := by decide

theorem MPtr.is_marked_ofPtr (x : Option Addr) :
    (MPtr.ofPtr x).is_marked = false := rfl

theorem MPtr.toBool_ofPtr_some (c : Addr) :
    (MPtr.ofPtr (some c)).toBool = true := by
  simp [MPtr.toBool, MPtr.ofPtr, MPtr.null]

theorem MPtr.p_ofPtr (x : Option Addr) : (MPtr.ofPtr x).p = x := rfl

theorem MPtr.ofPtr_none_eq_null : MPtr.ofPtr none = MPtr.null := rfl

theorem LSeg_last_mem {H : HeapL} :
    ∀ {a : Addr} {l : List Addr} {z : Addr}, LSeg H a l z → z ∈ a :: l := by
  intro a l z h
  induction h with
  | nil => simp
  | cons _ _ _ ih => simpa using Or.inr (by simpa using ih)

theorem LSeg_append {H : HeapL} :
    ∀ {a : Addr} {l₁ l₂ : List Addr} {m z : Addr},
      LSeg H a l₁ m → LSeg H m l₂ z → LSeg H a (l₁ ++ l₂) z := by
  intro a l₁ l₂ m z h1
  induction h1 with
  | nil => exact fun h2 => h2
  | cons ha hnext _ ih => exact fun h2 => LSeg.cons ha hnext (ih h2)

theorem LSeg_frame {H H' : HeapL} :
    ∀ {a : Addr} {l : List Addr} {z : Addr},
      LSeg H a l z → (a :: l).Nodup →
      (∀ x ∈ a :: l, x ≠ z → H' x = H x) → LSeg H' a l z := by
  intro a l z h
  induction h with
  | nil => intro _ _; exact LSeg.nil
  | @cons a n b rest z ha hnext hrest ih =>
    intro hnd hsame
    have hzmem : z ∈ b :: rest := LSeg_last_mem hrest
    have haz : a ≠ z := by
      intro hEq
      subst hEq
      exact (List.nodup_cons.mp hnd).1 hzmem
    refine LSeg.cons ((hsame a (by simp) haz).trans ha) hnext
      (ih (List.nodup_cons.mp hnd).2
        (fun x hx hxz => hsame x (by simp [hx]) hxz))

theorem LSeg_next_unmarked {H : HeapL} {c z : Addr} {l : List Addr}
    {cnd zn : MNode} (hseg : LSeg H c l z) (hc : H c = some cnd)
    (hz : H z = some zn) (hzn : zn.next = MPtr.null) :
    cnd.next.is_marked = false := by
  cases hseg with
  | nil =>
    rw [hc] at hz
    cases hz
    rw [hzn]
    rfl
  | cons ha hnext _ =>
    rw [ha] at hc
    cases hc
    rw [hnext]
    rfl

theorem pairRel_update_next {h : HeapL} {a : Addr} {n : MNode}
    (ha : h a = some n) (m : MPtr) {x : Addr} {kv : Nat × Nat}
    (hrel : pairRel h x kv) :
    pairRel (updateL h a { n with next := m }) x kv := by
  obtain ⟨nx, hnx, hk, hv⟩ := hrel
  by_cases hxa : x = a
  · subst hxa
    rw [hnx] at ha
    cases ha
    exact ⟨_, updateL_self _ _ _, hk, hv⟩
  · exact ⟨nx, by rw [updateL_ne _ _ hxa]; exact hnx, hk, hv⟩

theorem pairRel_alloc {h : HeapL} {a : Addr} (ha : h a = none) (n : MNode)
    {x : Addr} {kv : Nat × Nat} (hrel : pairRel h x kv) :
    pairRel (updateL h a n) x kv := by
  obtain ⟨nx, hnx, hk, hv⟩ := hrel
  have hxa : x ≠ a := by
    intro hEq
    subst hEq
    rw [hnx] at ha
    cases ha
  exact ⟨nx, by rw [updateL_ne _ _ hxa]; exact hnx, hk, hv⟩

theorem seFrom_spec (key : Nat) (s : LState) (z : Addr) (zn : MNode)
    (hz : s.heap z = some zn) (hzn : zn.next = MPtr.null) :
    ∀ (rest : List Addr) (mrest : List (Nat × Nat)) (fuel : Nat) (p : Addr)
      (pn : MNode) (cn : MPtr),
      s.heap p = some pn → LSeg s.heap p rest z →
      List.Forall₂ (pairRel s.heap) rest mrest → rest.length < fuel →
      ∃ (prev1 : Addr) (pre post : List Addr),
        rest = pre ++ post ∧
        LSeg s.heap p pre prev1 ∧
        LSeg s.heap prev1 post z ∧
        List.Forall₂ (pairRel s.heap) pre
          (mrest.takeWhile (fun kv => decide (kv.1 < key))) ∧
        List.Forall₂ (pairRel s.heap) post
          (mrest.dropWhile (fun kv => decide (kv.1 < key))) ∧
        ((post = [] ∧ ∃ cnr : MPtr,
           seFrom key fuel s p pn.next cn = some (s, false, prev1, none, cnr)) ∨
         (∃ (c : Addr) (post1 : List Addr) (cnd : MNode),
           post = c :: post1 ∧ s.heap c = some cnd ∧ ¬ cnd.key < key ∧
           seFrom key fuel s p pn.next cn
             = some (s, !decide (key < cnd.key), prev1, some c, cnd.next))) := by
  intro rest
  induction rest with
  | nil =>
    intro mrest fuel p pn cn hp hseg hforall hlen
    cases hseg
    cases hforall
    rw [hz] at hp
    cases hp
    obtain ⟨f, rfl⟩ : ∃ f, fuel = f + 1 := ⟨fuel - 1, by omega⟩
    have heq : seFrom key (f + 1) s z zn.next cn
        = some (s, false, z, none, cn) := by
      conv_lhs => rw [seFrom]
      simp [hzn, MPtr.is_marked_null, MPtr.toBool_null]
    exact ⟨z, [], [], rfl, LSeg.nil, LSeg.nil, List.Forall₂.nil,
      List.Forall₂.nil, Or.inl ⟨rfl, cn, heq⟩⟩
  | cons c rest' ih =>
    intro mrest fuel p pn cn hp hseg hforall hlen
    cases hseg with
    | cons hpn0 hnext0 hrest =>
      rw [hp] at hpn0
      cases hpn0
      cases hforall with
      | cons hkv hforall' =>
        rename_i kv mrest'
        obtain ⟨cnd, hc, hkk, hvv⟩ := hkv
        obtain ⟨f, rfl⟩ : ∃ f, fuel = f + 1 := ⟨fuel - 1, by omega⟩
        have hcm : cnd.next.is_marked = false :=
          LSeg_next_unmarked hrest hc hz hzn
        by_cases hlt : cnd.key < key
        · have hstep : seFrom key (f + 1) s p pn.next cn
              = seFrom key f s c cnd.next cnd.next := by
            conv_lhs => rw [seFrom]
            simp [hnext0, MPtr.is_marked_ofPtr, MPtr.toBool_ofPtr_some,
              MPtr.p_ofPtr, hp, hc, hcm, hlt]
          have hlen' : rest'.length < f := by
            simp only [List.length_cons] at hlen
            omega
          obtain ⟨prev1, pre', post, hsplit, hsegpre, hsegpost, hfpre,
            hfpost, hdisj⟩ := ih mrest' f c cnd cnd.next hc hrest hforall' hlen'
          have hkvlt : decide (kv.1 < key) = true := by
            rw [← hkk]
            exact decide_eq_true hlt
          refine ⟨prev1, c :: pre', post, by simp [hsplit],
            LSeg.cons hp hnext0 hsegpre, hsegpost, ?_, ?_, ?_⟩
          · rw [List.takeWhile_cons, hkvlt]
            exact List.Forall₂.cons ⟨cnd, hc, hkk, hvv⟩ hfpre
          · rw [List.dropWhile_cons, hkvlt]
            simpa using hfpost
          · rcases hdisj with ⟨hpost, cnr, heq⟩
              | ⟨c1, post1, cnd1, hpost, hc1, hnl, heq⟩
            · exact Or.inl ⟨hpost, cnr, hstep.trans heq⟩
            · exact Or.inr ⟨c1, post1, cnd1, hpost, hc1, hnl, hstep.trans heq⟩
        · have hstep : seFrom key (f + 1) s p pn.next cn
              = some (s, !decide (key < cnd.key), p, some c, cnd.next) := by
            conv_lhs => rw [seFrom]
            simp [hnext0, MPtr.is_marked_ofPtr, MPtr.toBool_ofPtr_some,
              MPtr.p_ofPtr, hp, hc, hcm, hlt]
          have hkvlt : decide (kv.1 < key) = false := by
            rw [← hkk]
            exact decide_eq_false hlt
          refine ⟨p, [], c :: rest', rfl, LSeg.nil,
            LSeg.cons hp hnext0 hrest, ?_, ?_, ?_⟩
          · rw [List.takeWhile_cons, hkvlt]
            exact List.Forall₂.nil
          · rw [List.dropWhile_cons, hkvlt]
            simpa using List.Forall₂.cons ⟨cnd, hc, hkk, hvv⟩ hforall'
          · exact Or.inr ⟨c, rest', cnd, rfl, hc, hlt, hstep⟩

theorem length_le_of_nodup_lt {l : List Nat} {n : Nat} (hnd : l.Nodup)
    (hlt : ∀ x ∈ l, x < n) : l.length ≤ n := by
  classical
  have hsub : l.toFinset ⊆ Finset.range n := by
    intro x hx
    rw [List.mem_toFinset] at hx
    rw [Finset.mem_range]
    exact hlt x hx
  have hcard := Finset.card_le_card hsub
  rw [Finset.card_range, List.toFinset_card_of_nodup hnd] at hcard
  exact hcard

theorem takeWhile_key_lt {key : Nat} {m : List (Nat × Nat)} :
    ∀ kv ∈ m.takeWhile (fun kv => decide (kv.1 < key)), kv.1 < key := by
  intro kv hkv
  have h := List.mem_takeWhile_imp hkv
  simpa using h

theorem refLookup_append_lt {key : Nat} :
    ∀ {mpre rest : List (Nat × Nat)}, (∀ kv ∈ mpre, kv.1 < key) →
      refLookup (mpre ++ rest) key = refLookup rest key := by
  intro mpre
  induction mpre with
  | nil => intro rest _; rfl
  | cons kv t ihm =>
    intro rest h
    obtain ⟨k1, v1⟩ := kv
    have hk : k1 < key := h (k1, v1) (by simp)
    have hne : key ≠ k1 := by omega
    simp only [List.cons_append, refLookup, if_neg hne]
    exact ihm (fun x hx => h x (by simp [hx]))

theorem refLookup_all_gt {key : Nat} :
    ∀ {m : List (Nat × Nat)}, (∀ kv ∈ m, key < kv.1) →
      refLookup m key = none := by
  intro m
  induction m with
  | nil => intro _; rfl
  | cons kv t ihm =>
    intro h
    obtain ⟨k1, v1⟩ := kv
    have hk : key < k1 := h (k1, v1) (by simp)
    have hne : key ≠ k1 := by omega
    simp only [refLookup, if_neg hne]
    exact ihm (fun x hx => h x (by simp [hx]))

theorem refLookup_split_found {key : Nat} {mpre mpost1 : List (Nat × Nat)}
    {kv : Nat × Nat} (hpre : ∀ x ∈ mpre, x.1 < key) (hk : kv.1 = key) :
    refLookup (mpre ++ kv :: mpost1) key = some kv.2 := by
  rw [refLookup_append_lt hpre]
  obtain ⟨k1, v1⟩ := kv
  simp only at hk
  simp [refLookup, hk]

theorem refInsert_append_lt {key v : Nat} :
    ∀ {mpre rest : List (Nat × Nat)}, (∀ kv ∈ mpre, kv.1 < key) →
      refInsert (mpre ++ rest) key v = mpre ++ refInsert rest key v := by
  intro mpre
  induction mpre with
  | nil => intro rest _; rfl
  | cons kv t ihm =>
    intro rest h
    obtain ⟨k1, v1⟩ := kv
    have hk : k1 < key := h (k1, v1) (by simp)
    have h1 : ¬ key < k1 := by omega
    have h2 : key ≠ k1 := by omega
    simp only [List.cons_append, refInsert, if_neg h1, if_neg h2,
      List.append_eq]
    rw [ihm (fun x hx => h x (by simp [hx]))]

theorem refInsert_head_ge {key v : Nat} {rest : List (Nat × Nat)}
    (h : ∀ kv, rest.head? = some kv → key < kv.1) :
    refInsert rest key v = (key, v) :: rest := by
  cases rest with
  | nil => rfl
  | cons kv t =>
    obtain ⟨k1, v1⟩ := kv
    have hk : key < k1 := h (k1, v1) rfl
    simp [refInsert, hk]

theorem refInsert_head_eq {key v : Nat} {kv : Nat × Nat}
    {t : List (Nat × Nat)} (hk : kv.1 = key) :
    refInsert (kv :: t) key v = (key, v) :: t := by
  obtain ⟨k1, v1⟩ := kv
  simp only at hk
  subst hk
  simp [refInsert]

theorem refErase_append_lt {key : Nat} :
    ∀ {mpre rest : List (Nat × Nat)}, (∀ kv ∈ mpre, kv.1 < key) →
      refErase (mpre ++ rest) key = mpre ++ refErase rest key := by
  intro mpre
  induction mpre with
  | nil => intro rest _; rfl
  | cons kv t ihm =>
    intro rest h
    obtain ⟨k1, v1⟩ := kv
    have hk : k1 < key := h (k1, v1) (by simp)
    have h2 : key ≠ k1 := by omega
    simp only [List.cons_append, refErase, if_neg h2, List.append_eq]
    rw [ihm (fun x hx => h x (by simp [hx]))]

theorem refErase_head_eq {key : Nat} {kv : Nat × Nat} {t : List (Nat × Nat)}
    (hk : kv.1 = key) : refErase (kv :: t) key = t := by
  obtain ⟨k1, v1⟩ := kv
  simp only at hk
  subst hk
  simp [refErase]

theorem refErase_all_gt {key : Nat} :
    ∀ {m : List (Nat × Nat)}, (∀ kv ∈ m, key < kv.1) →
      refErase m key = m := by
  intro m
  induction m with
  | nil => intro _; rfl
  | cons kv t ihm =>
    intro h
    obtain ⟨k1, v1⟩ := kv
    have hk : key < k1 := h (k1, v1) (by simp)
    have h2 : key ≠ k1 := by omega
    simp only [refErase, if_neg h2]
    rw [ihm (fun x hx => h x (by simp [hx]))]

theorem pairwise_insert_split {key value : Nat}
    {mpre mrest : List (Nat × Nat)}
    (hpre : ∀ kv ∈ mpre, kv.1 < key) (hrest : ∀ kv ∈ mrest, key < kv.1)
    (hpw1 : List.Pairwise (fun x y => x.1 < y.1) mpre)
    (hpw2 : List.Pairwise (fun x y => x.1 < y.1) mrest) :
    List.Pairwise (fun x y => x.1 < y.1)
      (mpre ++ (key, value) :: mrest) := by
  rw [List.pairwise_append]
  refine ⟨hpw1, ?_, ?_⟩
  · rw [List.pairwise_cons]
    exact ⟨hrest, hpw2⟩
  · intro a ha b hb
    rcases List.mem_cons.mp hb with rfl | hb'
    · exact hpre a ha
    · exact Nat.lt_trans (hpre a ha) (hrest b hb')

/-- All keys in the dropped suffix exceed `key`, given the suffix's head
does and the whole suffix is sorted. -/
theorem dropWhile_all_gt {key : Nat} {kv : Nat × Nat}
    {mpost1 : List (Nat × Nat)}
    (hpw : List.Pairwise (fun x y => x.1 < y.1) (kv :: mpost1))
    (hhead : key < kv.1) :
    ∀ x ∈ kv :: mpost1, key < x.1 := by
  intro x hx
  rcases List.mem_cons.mp hx with rfl | hx'
  · exact hhead
  · exact Nat.lt_trans hhead ((List.pairwise_cons.mp hpw).1 x hx')

theorem LSeg_head_heap {H : HeapL} {a z : Addr} {l : List Addr} {zn : MNode}
    (hseg : LSeg H a l z) (hz : H z = some zn) : ∃ n, H a = some n := by
  cases hseg with
  | nil => exact ⟨zn, hz⟩
  | cons ha _ _ => exact ⟨_, ha⟩

theorem LSeg_nil_inv {H : HeapL} {a z : Addr} (h : LSeg H a [] z) : z = a := by
  cases h
  rfl

theorem LSeg_cons_inv {H : HeapL} {a b z : Addr} {l : List Addr}
    (h : LSeg H a (b :: l) z) :
    ∃ n : MNode, H a = some n ∧ n.next = MPtr.ofPtr (some b) ∧ LSeg H b l z := by
  cases h with
  | cons ha hn hr => exact ⟨_, ha, hn, hr⟩

theorem ref_found_eqs (key v : Nat) {m : List (Nat × Nat)} {kv : Nat × Nat}
    {mpost1 : List (Nat × Nat)}
    (hdrop : m.dropWhile (fun kv => decide (kv.1 < key)) = kv :: mpost1)
    (hk : kv.1 = key) :
    refLookup m key = some kv.2 ∧
    refErase m key = m.takeWhile (fun kv => decide (kv.1 < key)) ++ mpost1 ∧
    refInsert m key v
      = m.takeWhile (fun kv => decide (kv.1 < key)) ++ (key, v) :: mpost1 := by
  have hsplit :=
    List.takeWhile_append_dropWhile (p := fun kv => decide (kv.1 < key)) (l := m)
  have hpre : ∀ kv ∈ m.takeWhile (fun kv => decide (kv.1 < key)), kv.1 < key :=
    takeWhile_key_lt
  refine ⟨?_, ?_, ?_⟩
  · conv_lhs => rw [← hsplit, hdrop]
    exact refLookup_split_found hpre hk
  · conv_lhs => rw [← hsplit, hdrop]
    rw [refErase_append_lt hpre, refErase_head_eq hk]
  · conv_lhs => rw [← hsplit, hdrop]
    rw [refInsert_append_lt hpre, refInsert_head_eq hk]

theorem ref_notfound_eqs (key v : Nat) {m : List (Nat × Nat)}
    (hsort : List.Pairwise (fun x y => x.1 < y.1) m)
    (hpost : ∀ kv, (m.dropWhile (fun kv => decide (kv.1 < key))).head?
        = some kv → key < kv.1) :
    refLookup m key = none ∧
    refErase m key = m ∧
    refInsert m key v
      = m.takeWhile (fun kv => decide (kv.1 < key)) ++ (key, v)
          :: m.dropWhile (fun kv => decide (kv.1 < key)) := by
  have hsplit :=
    List.takeWhile_append_dropWhile (p := fun kv => decide (kv.1 < key)) (l := m)
  have hpre : ∀ kv ∈ m.takeWhile (fun kv => decide (kv.1 < key)), kv.1 < key :=
    takeWhile_key_lt
  have hpwpost : List.Pairwise (fun x y => x.1 < y.1)
      (m.dropWhile (fun kv => decide (kv.1 < key))) := by
    refine hsort.sublist ?_
    conv_rhs => rw [← hsplit]
    exact List.sublist_append_right _ _
  have hgt : ∀ x ∈ m.dropWhile (fun kv => decide (kv.1 < key)), key < x.1 := by
    cases hmp : m.dropWhile (fun kv => decide (kv.1 < key)) with
    | nil => simp
    | cons kv t =>
      have hhead : key < kv.1 := hpost kv (by rw [hmp]; rfl)
      rw [← hmp]
      intro x hx
      rw [hmp] at hx
      exact dropWhile_all_gt (hmp ▸ hpwpost) hhead x hx
  refine ⟨?_, ?_, ?_⟩
  · conv_lhs => rw [← hsplit]
    rw [refLookup_append_lt hpre]
    exact refLookup_all_gt hgt
  · conv_lhs => rw [← hsplit]
    rw [refErase_append_lt hpre, refErase_all_gt hgt]
    exact hsplit
  · conv_lhs => rw [← hsplit]
    rw [refInsert_append_lt hpre, refInsert_head_ge hpost]

/-- Running a search from the sentinel of a state satisfying the chain
invariant: the state is unchanged and the walk splits the chain at the
first key not below the search key. -/
theorem search_at_inv {s : LState} {m : List (Nat × Nat)}
    {addrs : List Addr} {z : Addr} {zn : MNode}
    (hseg : LSeg s.heap 0 addrs z) (hz : s.heap z = some zn)
    (hzn : zn.next = MPtr.null)
    (hm : List.Forall₂ (pairRel s.heap) addrs m)
    (hbound : ∀ a ∈ 0 :: addrs, a < s.fresh)
    (hnd : (0 :: addrs).Nodup)
    {fuel : Nat} (hfuel : s.fresh < fuel) (key : Nat) (cn0 : MPtr) :
    ∃ (prev1 : Addr) (pre post : List Addr),
      addrs = pre ++ post ∧
      LSeg s.heap 0 pre prev1 ∧
      LSeg s.heap prev1 post z ∧
      List.Forall₂ (pairRel s.heap) pre
        (m.takeWhile (fun kv => decide (kv.1 < key))) ∧
      List.Forall₂ (pairRel s.heap) post
        (m.dropWhile (fun kv => decide (kv.1 < key))) ∧
      ((post = [] ∧ ∃ cnr : MPtr,
         searchEqual fuel s 0 cn0 key = some (s, false, prev1, none, cnr)) ∨
       (∃ (c : Addr) (post1 : List Addr) (cnd : MNode),
         post = c :: post1 ∧ s.heap c = some cnd ∧ ¬ cnd.key < key ∧
         searchEqual fuel s 0 cn0 key
           = some (s, !decide (key < cnd.key), prev1, some c, cnd.next))) := by
  obtain ⟨hd, hhd⟩ := LSeg_head_heap hseg hz
  have hlen : addrs.length < fuel := by
    have h1 : (0 :: addrs).length ≤ s.fresh :=
      length_le_of_nodup_lt hnd hbound
    simp only [List.length_cons] at h1
    exact Nat.lt_trans (Nat.lt_of_succ_le h1) hfuel
  obtain ⟨prev1, pre, post, hsplit, hsegpre, hsegpost, hfpre, hfpost, hdisj⟩ :=
    seFrom_spec key s z zn hz hzn addrs m fuel 0 hd cn0 hhd hseg hm hlen
  refine ⟨prev1, pre, post, hsplit, hsegpre, hsegpost, hfpre, hfpost, ?_⟩
  have hwrap : searchEqual fuel s 0 cn0 key = seFrom key fuel s 0 hd.next cn0 := by
    simp only [searchEqual, hhd]
  rcases hdisj with ⟨hpost, cnr, heq⟩ | ⟨c, post1, cnd, hpost, hc, hnl, heq⟩
  · exact Or.inl ⟨hpost, cnr, hwrap.trans heq⟩
  · exact Or.inr ⟨c, post1, cnd, hpost, hc, hnl, hwrap.trans heq⟩

theorem feFrom_spec (s : LState) (z : Addr) (zn : MNode)
    (hz : s.heap z = some zn) (hzn : zn.next = MPtr.null) :
    ∀ (rest : List Addr) (mrest : List (Nat × Nat)) (fuel : Nat) (p : Addr)
      (pn : MNode) (acc : List (Nat × Nat)),
      s.heap p = some pn → LSeg s.heap p rest z →
      List.Forall₂ (pairRel s.heap) rest mrest → rest.length < fuel →
      feFrom fuel s p pn.next none acc = some (s, acc ++ mrest) := by
  intro rest
  induction rest with
  | nil =>
    intro mrest fuel p pn acc hp hseg hforall hlen
    cases hseg
    cases hforall
    rw [hz] at hp
    cases hp
    obtain ⟨f, rfl⟩ : ∃ f, fuel = f + 1 := ⟨fuel - 1, by omega⟩
    conv_lhs => rw [feFrom]
    simp [hzn, MPtr.is_marked_null, MPtr.toBool_null]
  | cons c rest' ih =>
    intro mrest fuel p pn acc hp hseg hforall hlen
    cases hseg with
    | cons hpn0 hnext0 hrest =>
      rw [hp] at hpn0
      cases hpn0
      cases hforall with
      | cons hkv hforall' =>
        rename_i kv mrest'
        obtain ⟨cnd, hc, hkk, hvv⟩ := hkv
        obtain ⟨f, rfl⟩ : ∃ f, fuel = f + 1 := ⟨fuel - 1, by omega⟩
        have hcm : cnd.next.is_marked = false :=
          LSeg_next_unmarked hrest hc hz hzn
        have hstep : feFrom (f + 1) s p pn.next none acc
            = feFrom f s c cnd.next none (acc ++ [(cnd.key, cnd.value)]) := by
          conv_lhs => rw [feFrom]
          simp [hnext0, MPtr.is_marked_ofPtr, MPtr.toBool_ofPtr_some,
            MPtr.p_ofPtr, hp, hc, hcm]
        have hlen' : rest'.length < f := by
          simp only [List.length_cons] at hlen
          omega
        rw [hstep, ih mrest' f c cnd (acc ++ [(cnd.key, cnd.value)]) hc hrest
          hforall' hlen']
        have hkveq : (cnd.key, cnd.value) = kv := by
          rw [hkk, hvv]
        rw [hkveq]
        simp

theorem getOp_spec {s : LState} {m : List (Nat × Nat)} (h : LInv s m)
    (key : Nat) :
    getOp s key = some (s, (refLookup m key).isSome, refLookup m key) := by
  obtain ⟨addrs, z, zn, hseg, hz, hzn, hm, hsort, hbound, hnd, hfree⟩ := h
  obtain ⟨prev1, pre, post, hsplit, hsegpre, hsegpost, hfpre, hfpost, hdisj⟩ :=
    search_at_inv hseg hz hzn hm hbound hnd
      (show s.fresh < s.fresh + 2 from
        Nat.lt_of_lt_of_le (Nat.lt_succ_self _) (Nat.le_succ _)) key MPtr.null
  rcases hdisj with ⟨hpost, cnr, heq⟩ | ⟨c, post1, cnd, hpost, hc, hnl, heq⟩
  · have hmpost : m.dropWhile (fun kv => decide (kv.1 < key)) = [] := by
      rw [hpost] at hfpost
      exact List.forall₂_nil_left_iff.mp hfpost
    obtain ⟨hlook, _, _⟩ := ref_notfound_eqs key 0 hsort
      (by rw [hmpost]; intro kv hkv; cases hkv)
    rw [hlook]
    simp only [getOp, heq, Option.isSome_none]
    rfl
  · rw [hpost] at hfpost
    obtain ⟨kv, mpost1, hkv, hfpost', hdropeq⟩ :=
      List.forall₂_cons_left_iff.mp hfpost
    obtain ⟨cnd1, hc1, hkk, hvv⟩ := hkv
    rw [hc] at hc1
    cases hc1
    by_cases hklt : key < cnd.key
    · -- strictly greater: not found
      obtain ⟨hlook, _, _⟩ := ref_notfound_eqs key 0 hsort
        (by
          rw [hdropeq]
          intro kv1 hkv1
          cases hkv1
          rw [← hkk]
          exact hklt)
      rw [hlook]
      have hfound : (!decide (key < cnd.key)) = false := by
        simp [hklt]
      rw [hfound] at heq
      simp only [getOp, heq, Option.isSome_none]
      rfl
    · -- equal: found
      have hkey : cnd.key = key := Nat.le_antisymm
        (Nat.le_of_not_lt hklt) (Nat.le_of_not_lt hnl)
      obtain ⟨hlook, _, _⟩ := ref_found_eqs key 0 hdropeq (by rw [← hkk, hkey])
      rw [hlook]
      have hfound : (!decide (key < cnd.key)) = true := by
        simp [hklt]
      rw [hfound] at heq
      simp only [getOp, heq, if_true, hc, hvv, Option.isSome_some]

/-- `forEach` on a state satisfying the invariant delivers exactly the
map's pairs, in order, without modifying the state. -/
theorem forEachOp_spec {s : LState} {m : List (Nat × Nat)} (h : LInv s m) :
    forEachOp s = some (s, m) := by
  obtain ⟨addrs, z, zn, hseg, hz, hzn, hm, hsort, hbound, hnd, hfree⟩ := h
  obtain ⟨hd, hhd⟩ := LSeg_head_heap hseg hz
  have hlen : addrs.length < s.fresh + 2 := by
    have h1 : (0 :: addrs).length ≤ s.fresh :=
      length_le_of_nodup_lt hnd hbound
    simp only [List.length_cons] at h1
    omega
  have heq := feFrom_spec s z zn hz hzn addrs m (s.fresh + 2) 0 hd [] hhd
    hseg hm hlen
  simp only [forEachOp, hhd, heq, List.nil_append]

theorem updateL_updateL (h : HeapL) (a : Addr) (n1 n2 : MNode) :
    updateL (updateL h a n1) a n2 = updateL h a n2 := by
  funext x
  by_cases hx : x = a <;> simp [updateL, hx]

theorem removeOp_spec {s : LState} {m : List (Nat × Nat)} (h : LInv s m)
    (key : Nat) :
    ∃ s', removeOp s key
        = some (s', (refLookup m key).isSome, refLookup m key) ∧
      LInv s' (refErase m key) := by
  obtain ⟨addrs, z, zn, hseg, hz, hzn, hm, hsort, hbound, hnd, hfree⟩ := h
  obtain ⟨prev1, pre, post, hsplit, hsegpre, hsegpost, hfpre, hfpost, hdisj⟩ :=
    search_at_inv hseg hz hzn hm hbound hnd
      (show s.fresh < s.fresh + 2 from
        Nat.lt_of_lt_of_le (Nat.lt_succ_self _) (Nat.le_succ _)) key MPtr.null
  have hF : s.fresh + 2 = (s.fresh + 1) + 1 := rfl
  have hndsplit : (0 :: pre).Nodup ∧ post.Nodup ∧ (0 :: pre).Disjoint post := by
    rw [hsplit, ← List.cons_append] at hnd
    exact List.nodup_append.mp hnd
  have hprev_mem : prev1 ∈ 0 :: pre := LSeg_last_mem hsegpre
  have hinv_of_same : LInv s m := by
    exact ⟨addrs, z, zn, hseg, hz, hzn, hm, hsort, hbound, hnd, hfree⟩
  rcases hdisj with ⟨hpost, cnr, heq⟩ | ⟨c, post1, cnd, hpost, hc, hnl, heq⟩
  · -- reached the end of the list: not found, nothing changes
    have hmpost : m.dropWhile (fun kv => decide (kv.1 < key)) = [] := by
      rw [hpost] at hfpost
      exact List.forall₂_nil_left_iff.mp hfpost
    obtain ⟨hlook, herase, _⟩ := ref_notfound_eqs key 0 hsort
      (by rw [hmpost]; intro kv hkv; cases hkv)
    refine ⟨s, ?_, ?_⟩
    · rw [hlook]
      show removeLoop key (s.fresh + 2) (s.fresh + 2) s 0 MPtr.null = _
      rw [hF, removeLoop, heq]
      rfl
    · rw [herase]
      exact hinv_of_same
  · rw [hpost] at hfpost
    obtain ⟨kv, mpost1, hkv, hfpost1, hdropeq⟩ :=
      List.forall₂_cons_left_iff.mp hfpost
    obtain ⟨cnd1, hc1, hkk, hvv⟩ := hkv
    rw [hc] at hc1
    cases hc1
    by_cases hklt : key < cnd.key
    · -- first not-smaller key is strictly greater: not found
      obtain ⟨hlook, herase, _⟩ := ref_notfound_eqs key 0 hsort
        (by
          rw [hdropeq]
          intro kv1 hkv1
          cases hkv1
          rw [← hkk]
          exact hklt)
      have hfound : (!decide (key < cnd.key)) = false := by simp [hklt]
      rw [hfound] at heq
      refine ⟨s, ?_, ?_⟩
      · rw [hlook]
        show removeLoop key (s.fresh + 2) (s.fresh + 2) s 0 MPtr.null = _
        rw [hF, removeLoop, heq]
        rfl
      · rw [herase]
        exact hinv_of_same
    · -- found: logically delete `c`, then unlink it
      have hkey : cnd.key = key :=
        Nat.le_antisymm (Nat.le_of_not_lt hklt) (Nat.le_of_not_lt hnl)
      have hfound : (!decide (key < cnd.key)) = true := by simp [hklt]
      rw [hfound] at heq
      obtain ⟨hlook, herase, _⟩ := ref_found_eqs key 0 hdropeq
        (by rw [← hkk, hkey])
      -- structural facts
      rw [hpost] at hsegpost
      cases hsegpost with
      | cons hpn0 hpn0next hsegc =>
        rename_i pn0
        have hcmem : c ∈ post := by rw [hpost]; simp
        have hprev_ne_c : prev1 ≠ c := by
          intro hEq
          exact hndsplit.2.2 hprev_mem (hEq ▸ hcmem)
        have hc_ne_prev : c ≠ prev1 := Ne.symm hprev_ne_c
        have hmark : cnd.next.is_marked = false :=
          LSeg_next_unmarked hsegc hc hz hzn
        -- the two CAS writes
        have h2prev :
            updateL s.heap c { cnd with next := cnd.next.to_marked } prev1
              = s.heap prev1 := updateL_ne _ _ hprev_ne_c
        have h3c :
            updateL (updateL s.heap c { cnd with next := cnd.next.to_marked })
              prev1 { pn0 with next := cnd.next } c
              = some { cnd with next := cnd.next.to_marked } := by
          rw [updateL_ne _ _ hc_ne_prev]
          exact updateL_self _ _ _
        have hcas1 : casNext s c cnd.next cnd.next.to_marked
            = some ({ s with heap := (updateL s.heap c
                { cnd with next := cnd.next.to_marked }) }, true) := by
          simp [casNext, hc]
        have hcas2 : casNext
            { s with heap := (updateL s.heap c
                { cnd with next := cnd.next.to_marked }) }
            prev1 (MPtr.ofPtr (some c)) cnd.next
            = some
              ({ s with heap := (updateL (updateL s.heap c
                      { cnd with next := cnd.next.to_marked })
                    prev1 { pn0 with next := cnd.next }) },
               true) := by
          simp [casNext, h2prev, hpn0, hpn0next]
        have hrcn : replaceCurrNode s prev1 c cnd.next cnd.next
            = some
              ({ s with heap := (updateL (updateL s.heap c
                      { cnd with next := cnd.next.to_marked })
                    prev1 { pn0 with next := cnd.next }) },
               true, cnd.next, some cnd.value) := by
          simp [replaceCurrNode, hmark, hcas1, hcas2, h3c]
        refine ⟨{ s with heap := (updateL (updateL s.heap c
                { cnd with next := cnd.next.to_marked })
              prev1 { pn0 with next := cnd.next }) }, ?_, ?_⟩
        · rw [hlook, ← hvv]
          show removeLoop key (s.fresh + 2) (s.fresh + 2) s 0 MPtr.null = _
          rw [hF, removeLoop, heq]
          simp only [if_pos rfl, removeInner, hrcn]
          rfl
        · -- the new invariant, chain pre ++ post1, map mpre ++ mpost1
          rw [herase]
          -- shared pieces
          have hm_eq : m = m.takeWhile (fun kv => decide (kv.1 < key))
              ++ (kv :: mpost1) := by
            conv_lhs => rw [← List.takeWhile_append_dropWhile
              (p := fun kv => decide (kv.1 < key)) (l := m), hdropeq]
          have hsort' : List.Pairwise (fun x y => x.1 < y.1)
              (m.takeWhile (fun kv => decide (kv.1 < key)) ++ kv :: mpost1) := by
            rw [← hm_eq]
            exact hsort
          have hpw_new : List.Pairwise (fun x y => x.1 < y.1)
              (m.takeWhile (fun kv => decide (kv.1 < key)) ++ mpost1) := by
            refine hsort'.sublist ?_
            exact List.Sublist.append_left (List.sublist_cons_self _ _) _
          have hpair_pres : ∀ (x : Addr) (kv1 : Nat × Nat),
              pairRel s.heap x kv1 →
              pairRel (updateL (updateL s.heap c
                  { cnd with next := cnd.next.to_marked })
                prev1 { pn0 with next := cnd.next }) x kv1 := by
            intro x kv1 hrel
            have h1 := pairRel_update_next hc cnd.next.to_marked hrel
            have h2 :
                updateL s.heap c { cnd with next := cnd.next.to_marked } prev1
                  = some pn0 := by rw [h2prev]; exact hpn0
            exact pairRel_update_next h2 cnd.next h1
          have hzmem : z ∈ 0 :: addrs := LSeg_last_mem hseg
          have hzlt : z < s.fresh := hbound z hzmem
          have hclt : c < s.fresh := hbound c (by rw [hsplit]; simp [hcmem])
          have hplt : prev1 < s.fresh := hbound prev1 (by
            rcases List.mem_cons.mp hprev_mem with rfl | hmem
            · simp
            · rw [hsplit]
              simp [List.mem_append.mpr (Or.inl hmem)])
          have hpre3 : LSeg (updateL (updateL s.heap c
              { cnd with next := cnd.next.to_marked })
              prev1 { pn0 with next := cnd.next }) 0 pre prev1 := by
            refine LSeg_frame hsegpre hndsplit.1 ?_
            intro x hx hxp
            have hx_ne_c : x ≠ c := fun hEq => hndsplit.2.2 (hEq ▸ hx) hcmem
            rw [updateL_ne _ _ hxp, updateL_ne _ _ hx_ne_c]
          have hfree3 : ∀ a : Addr, s.fresh ≤ a →
              updateL (updateL s.heap c
                { cnd with next := cnd.next.to_marked })
                prev1 { pn0 with next := cnd.next } a = none := by
            intro a ha
            have ha1 : a ≠ prev1 := by
              intro hEq
              subst hEq
              exact absurd hplt (Nat.not_lt.mpr ha)
            have ha2 : a ≠ c := by
              intro hEq
              subst hEq
              exact absurd hclt (Nat.not_lt.mpr ha)
            rw [updateL_ne _ _ ha1, updateL_ne _ _ ha2]
            exact hfree a ha
          cases post1 with
          | nil =>
            -- c was the last node of the chain; prev1 becomes the end
            have hzc : z = c := LSeg_nil_inv hsegc
            have hczn : cnd = zn := by
              rw [hzc, hc] at hz
              exact Option.some.inj hz
            have hnull : cnd.next = MPtr.null := by
              rw [hczn]
              exact hzn
            have hfp1 : mpost1 = [] := List.forall₂_nil_left_iff.mp hfpost1
            subst hfp1
            rw [List.append_nil] at hpw_new ⊢
            refine ⟨pre, prev1, { pn0 with next := cnd.next },
              hpre3, ?_, ?_, ?_, hpw_new, ?_, hndsplit.1, hfree3⟩
            · exact updateL_self _ _ _
            · exact hnull
            · exact List.Forall₂.imp (fun a b hab => hpair_pres a b hab) hfpre
            · intro a ha
              rcases List.mem_cons.mp ha with rfl | hmem
              · exact hbound 0 (by simp)
              · exact hbound a
                  (by rw [hsplit]; simp [List.mem_append.mpr (Or.inl hmem)])
          | cons d rest2 =>
            obtain ⟨cnd1, hc1, hcnext, hsegd⟩ := LSeg_cons_inv hsegc
            rw [hc] at hc1
            cases hc1
            have hdmem_z : z ∈ d :: rest2 := LSeg_last_mem hsegd
            have hnd_post : post.Nodup := hndsplit.2.1
            have hz_ne_c : z ≠ c := by
              intro hEq
              have hmm : c ∈ d :: rest2 := hEq ▸ hdmem_z
              rw [hpost] at hnd_post
              exact (List.nodup_cons.mp hnd_post).1 hmm
            have hz_ne_prev : z ≠ prev1 := by
              intro hEq
              refine hndsplit.2.2 (hEq ▸ hprev_mem) ?_
              rw [hpost]
              exact List.mem_cons_of_mem c hdmem_z
            have hframe_in : ∀ x ∈ d :: rest2, x ≠ z →
                updateL (updateL s.heap c
                    { cnd with next := cnd.next.to_marked })
                  prev1 { pn0 with next := cnd.next } x = s.heap x := by
              intro x hx _
              have hx_ne_c : x ≠ c := by
                intro hEq
                rw [hpost] at hnd_post
                exact (List.nodup_cons.mp hnd_post).1 (hEq ▸ hx)
              have hx_ne_prev : x ≠ prev1 := by
                intro hEq
                refine hndsplit.2.2 (hEq ▸ hprev_mem) ?_
                rw [hpost]
                exact List.mem_cons_of_mem c hx
              rw [updateL_ne _ _ hx_ne_prev, updateL_ne _ _ hx_ne_c]
            have hnd_dr : (d :: rest2).Nodup := by
              rw [hpost] at hnd_post
              exact (List.nodup_cons.mp hnd_post).2
            refine ⟨pre ++ d :: rest2, z, zn, ?_, ?_, hzn, ?_, hpw_new,
              ?_, ?_, hfree3⟩
            · refine LSeg_append hpre3 ?_
              refine LSeg.cons (updateL_self _ _ _) ?_ ?_
              · show MNode.next { pn0 with next := cnd.next }
                    = MPtr.ofPtr (some d)
                exact hcnext
              · exact LSeg_frame hsegd hnd_dr hframe_in
            · show updateL (updateL s.heap c
                  { cnd with next := cnd.next.to_marked })
                  prev1 { pn0 with next := cnd.next } z = some zn
              rw [updateL_ne _ _ hz_ne_prev, updateL_ne _ _ hz_ne_c]
              exact hz
            · exact List.rel_append
                (List.Forall₂.imp (fun a b hab => hpair_pres a b hab) hfpre)
                (List.Forall₂.imp (fun a b hab => hpair_pres a b hab) hfpost1)
            · intro a ha
              rcases List.mem_cons.mp ha with rfl | hmem
              · exact hbound 0 (by simp)
              · rcases List.mem_append.mp hmem with h1 | h1
                · exact hbound a
                    (by rw [hsplit]; simp [List.mem_append.mpr (Or.inl h1)])
                · exact hbound a (by
                    rw [hsplit, hpost]
                    refine List.mem_cons_of_mem 0 ?_
                    refine List.mem_append.mpr (Or.inr ?_)
                    exact List.mem_cons_of_mem c h1)
            · have hsub : (0 :: (pre ++ d :: rest2)).Sublist (0 :: addrs) := by
                rw [hsplit, hpost]
                exact List.Sublist.cons₂ 0
                  (List.Sublist.append_left (List.sublist_cons_self _ _) _)
              exact hnd.sublist hsub

theorem pairRel_update_keep {h : HeapL} {a : Addr} {n : MNode}
    (ha : h a = some n) (n' : MNode) (hk : n'.key = n.key)
    (hv : n'.value = n.value) {x : Addr} {kv : Nat × Nat}
    (hrel : pairRel h x kv) : pairRel (updateL h a n') x kv := by
  obtain ⟨nx, hnx, hk1, hv1⟩ := hrel
  by_cases hxa : x = a
  · subst hxa
    rw [hnx] at ha
    cases ha
    exact ⟨n', updateL_self _ _ _, by rw [hk]; exact hk1,
      by rw [hv]; exact hv1⟩
  · exact ⟨nx, by rw [updateL_ne _ _ hxa]; exact hnx, hk1, hv1⟩

theorem putOp_spec {s : LState} {m : List (Nat × Nat)} (h : LInv s m)
    (key value : Nat) :
    ∃ s', putOp s key value
        = some (s', (refLookup m key).isSome, refLookup m key) ∧
      LInv s' (refInsert m key value) := by
  obtain ⟨addrs, z, zn, hseg, hz, hzn, hm, hsort, hbound, hnd, hfree⟩ := h
  have hnode0 : s.heap s.fresh = none := hfree s.fresh (Nat.le_refl _)
  have hbound_ne : ∀ a ∈ 0 :: addrs, a ≠ s.fresh :=
    fun a ha => Nat.ne_of_lt (hbound a ha)
  -- the invariant survives allocating the private new node
  have hseg1 : LSeg (updateL s.heap s.fresh ⟨MPtr.null, key, value⟩)
      0 addrs z :=
    LSeg_frame hseg hnd (fun x hx _ => updateL_ne _ _ (hbound_ne x hx))
  have hzmem : z ∈ 0 :: addrs := LSeg_last_mem hseg
  have hz_ne_f : z ≠ s.fresh := hbound_ne z hzmem
  have hz1 : updateL s.heap s.fresh ⟨MPtr.null, key, value⟩ z = some zn := by
    rw [updateL_ne _ _ hz_ne_f]
    exact hz
  have hm1 : List.Forall₂
      (pairRel (updateL s.heap s.fresh ⟨MPtr.null, key, value⟩)) addrs m :=
    List.Forall₂.imp (fun a b hab => pairRel_alloc hnode0 _ hab) hm
  have hbound1 : ∀ a ∈ 0 :: addrs, a < s.fresh + 1 :=
    fun a ha => Nat.lt_succ_of_lt (hbound a ha)
  obtain ⟨prev1, pre, post, hsplit, hsegpre, hsegpost, hfpre, hfpost, hdisj⟩ :=
    search_at_inv
      (s := { heap := (updateL s.heap s.fresh ⟨MPtr.null, key, value⟩),
              fresh := s.fresh + 1 })
      hseg1 hz1 hzn hm1 hbound1 hnd
      (show s.fresh + 1 < s.fresh + 1 + 1 from Nat.lt_succ_self _)
      key MPtr.null
  have hsegpre' : LSeg (updateL s.heap s.fresh ⟨MPtr.null, key, value⟩)
      0 pre prev1 := hsegpre
  have hsegpost' : LSeg (updateL s.heap s.fresh ⟨MPtr.null, key, value⟩)
      prev1 post z := hsegpost
  have hfpre' : List.Forall₂
      (pairRel (updateL s.heap s.fresh ⟨MPtr.null, key, value⟩)) pre
      (m.takeWhile (fun kv => decide (kv.1 < key))) := hfpre
  have hfpost' : List.Forall₂
      (pairRel (updateL s.heap s.fresh ⟨MPtr.null, key, value⟩)) post
      (m.dropWhile (fun kv => decide (kv.1 < key))) := hfpost
  have hndsplit : (0 :: pre).Nodup ∧ post.Nodup ∧ (0 :: pre).Disjoint post := by
    have hnd2 := hnd
    rw [hsplit, ← List.cons_append] at hnd2
    exact List.nodup_append.mp hnd2
  have hprev_mem : prev1 ∈ 0 :: pre := LSeg_last_mem hsegpre'
  have hmem_pre : ∀ x ∈ 0 :: pre, x ∈ 0 :: addrs := by
    intro x hx
    rcases List.mem_cons.mp hx with rfl | hmem
    · simp
    · rw [hsplit]
      exact List.mem_cons_of_mem 0 (List.mem_append.mpr (Or.inl hmem))
  have hmem_post : ∀ x ∈ post, x ∈ 0 :: addrs := by
    intro x hx
    rw [hsplit]
    exact List.mem_cons_of_mem 0 (List.mem_append.mpr (Or.inr hx))
  have hplt : prev1 < s.fresh := hbound prev1 (hmem_pre prev1 hprev_mem)
  have hp_ne_f : prev1 ≠ s.fresh := Nat.ne_of_lt hplt
  have hf_ne_p : s.fresh ≠ prev1 := Ne.symm hp_ne_f
  have hm_eq : m = m.takeWhile (fun kv => decide (kv.1 < key))
      ++ m.dropWhile (fun kv => decide (kv.1 < key)) :=
    (List.takeWhile_append_dropWhile
      (p := fun kv => decide (kv.1 < key)) (l := m)).symm
  have hpw_all : List.Pairwise (fun x y => x.1 < y.1)
      (m.takeWhile (fun kv => decide (kv.1 < key))
        ++ m.dropWhile (fun kv => decide (kv.1 < key))) := by
    rw [← hm_eq]
    exact hsort
  obtain ⟨hpw_pre, hpw_post, -⟩ := List.pairwise_append.mp hpw_all
  have hpre_lt : ∀ kv ∈ m.takeWhile (fun kv => decide (kv.1 < key)),
      kv.1 < key := takeWhile_key_lt
  rcases hdisj with ⟨hpost, cnr, heq⟩ | ⟨c, post1, cnd, hpost, hc, hnl, heq⟩
  · -- reached the end of the list: the new node is linked after the tail
    rw [hpost] at hsegpost' hfpost'
    have hmpost : m.dropWhile (fun kv => decide (kv.1 < key)) = [] :=
      List.forall₂_nil_left_iff.mp hfpost'
    obtain ⟨hlook, -, hinsert⟩ := ref_notfound_eqs key value hsort
      (by rw [hmpost]; intro kv hkv; cases hkv)
    have hzp : z = prev1 := LSeg_nil_inv hsegpost'
    have hpz1 : updateL s.heap s.fresh ⟨MPtr.null, key, value⟩ prev1
        = some zn := by
      rw [← hzp]
      exact hz1
    have hsetN : setNext
        { heap := (updateL s.heap s.fresh ⟨MPtr.null, key, value⟩),
          fresh := s.fresh + 1 } s.fresh (MPtr.ofPtr none)
        = some { heap := (updateL (updateL s.heap s.fresh
              ⟨MPtr.null, key, value⟩) s.fresh
              ⟨MPtr.ofPtr none, key, value⟩),
                 fresh := s.fresh + 1 } := by
      simp [setNext, updateL_self]
    have hpz2 : updateL (updateL s.heap s.fresh ⟨MPtr.null, key, value⟩)
        s.fresh ⟨MPtr.ofPtr none, key, value⟩ prev1 = some zn := by
      rw [updateL_ne _ _ hp_ne_f]
      exact hpz1
    have hcond : zn.next = MPtr.ofPtr none := by
      rw [hzn]
      rfl
    have hcasN : casNext
        { heap := (updateL (updateL s.heap s.fresh ⟨MPtr.null, key, value⟩)
            s.fresh ⟨MPtr.ofPtr none, key, value⟩),
          fresh := s.fresh + 1 } prev1 (MPtr.ofPtr none)
        (MPtr.ofPtr (some s.fresh))
        = some ({ heap := (updateL (updateL (updateL s.heap s.fresh
                ⟨MPtr.null, key, value⟩) s.fresh
                ⟨MPtr.ofPtr none, key, value⟩)
              prev1 { zn with next := MPtr.ofPtr (some s.fresh) }),
                  fresh := s.fresh + 1 }, true) := by
      simp [casNext, hpz2, hcond]
    refine ⟨{ heap := (updateL (updateL (updateL s.heap s.fresh
            ⟨MPtr.null, key, value⟩) s.fresh ⟨MPtr.ofPtr none, key, value⟩)
          prev1 { zn with next := MPtr.ofPtr (some s.fresh) }),
              fresh := s.fresh + 1 }, ?_, ?_⟩
    · rw [hlook]
      show putLoop key value s.fresh (s.fresh + 1 + 1) (s.fresh + 1 + 1)
          { heap := (updateL s.heap s.fresh ⟨MPtr.null, key, value⟩),
            fresh := s.fresh + 1 } 0 MPtr.null = _
      rw [putLoop, heq]
      simp [hsetN, hcasN]
    · rw [hinsert, hmpost]
      have hpair_pres : ∀ (x : Addr) (kv1 : Nat × Nat),
          pairRel (updateL s.heap s.fresh ⟨MPtr.null, key, value⟩) x kv1 →
          pairRel (updateL (updateL (updateL s.heap s.fresh
              ⟨MPtr.null, key, value⟩) s.fresh ⟨MPtr.ofPtr none, key, value⟩)
            prev1 { zn with next := MPtr.ofPtr (some s.fresh) }) x kv1 := by
        intro x kv1 hrel
        have h1 : pairRel (updateL (updateL s.heap s.fresh
            ⟨MPtr.null, key, value⟩) s.fresh
            ⟨MPtr.ofPtr none, key, value⟩) x kv1 :=
          pairRel_update_keep
              (show updateL s.heap s.fresh ⟨MPtr.null, key, value⟩ s.fresh
                  = some ⟨MPtr.null, key, value⟩ from updateL_self _ _ _)
              ⟨MPtr.ofPtr none, key, value⟩ rfl rfl hrel
        exact pairRel_update_next hpz2 (MPtr.ofPtr (some s.fresh)) h1
      have hnew : updateL (updateL (updateL s.heap s.fresh
          ⟨MPtr.null, key, value⟩) s.fresh ⟨MPtr.ofPtr none, key, value⟩)
          prev1 { zn with next := MPtr.ofPtr (some s.fresh) } s.fresh
          = some ⟨MPtr.ofPtr none, key, value⟩ := by
        rw [updateL_ne _ _ hf_ne_p]
        exact updateL_self _ _ _
      refine ⟨pre ++ [s.fresh], s.fresh, ⟨MPtr.ofPtr none, key, value⟩,
        ?_, hnew, rfl, ?_, ?_, ?_, ?_, ?_⟩
      · have hpre3 : LSeg (updateL (updateL (updateL s.heap s.fresh
            ⟨MPtr.null, key, value⟩) s.fresh ⟨MPtr.ofPtr none, key, value⟩)
            prev1 { zn with next := MPtr.ofPtr (some s.fresh) })
            0 pre prev1 := by
          refine LSeg_frame hsegpre' hndsplit.1 ?_
          intro x hx hxp
          have hxf : x ≠ s.fresh := hbound_ne x (hmem_pre x hx)
          rw [updateL_ne _ _ hxp, updateL_ne _ _ hxf]
        refine LSeg_append hpre3 ?_
        refine LSeg.cons (updateL_self _ _ _) ?_ LSeg.nil
        show MNode.next { zn with next := MPtr.ofPtr (some s.fresh) }
            = MPtr.ofPtr (some s.fresh)
        rfl
      · refine forall₂_append_singleton
          (List.Forall₂.imp (fun a b hab => hpair_pres a b hab) hfpre') ?_
        exact ⟨⟨MPtr.ofPtr none, key, value⟩, hnew, rfl, rfl⟩
      · exact pairwise_insert_split hpre_lt
          (by intro kv hkv; cases hkv) hpw_pre List.Pairwise.nil
      · intro a ha
        rcases List.mem_cons.mp ha with rfl | hmem
        · exact Nat.lt_succ_of_lt (hbound 0 (by simp))
        · rcases List.mem_append.mp hmem with h1 | h1
          · exact Nat.lt_succ_of_lt
              (hbound a (hmem_pre a (List.mem_cons_of_mem 0 h1)))
          · rw [List.mem_singleton] at h1
            rw [h1]
            exact Nat.lt_succ_self _
      · have hok : ((0 :: pre) ++ [s.fresh]).Nodup := by
          refine List.nodup_append.mpr ⟨hndsplit.1, List.nodup_singleton _, ?_⟩
          intro x hx hx2
          rw [List.mem_singleton] at hx2
          exact hbound_ne x (hmem_pre x hx) hx2
        exact hok
      · intro a ha
        show updateL (updateL (updateL s.heap s.fresh
            ⟨MPtr.null, key, value⟩) s.fresh ⟨MPtr.ofPtr none, key, value⟩)
          prev1 { zn with next := MPtr.ofPtr (some s.fresh) } a = none
        have haf : a ≠ s.fresh := Ne.symm (Nat.ne_of_lt (Nat.lt_of_succ_le ha))
        have hap : a ≠ prev1 := Ne.symm (Nat.ne_of_lt
          (Nat.lt_of_lt_of_le hplt (Nat.le_of_succ_le ha)))
        rw [updateL_ne _ _ hap, updateL_ne _ _ haf, updateL_ne _ _ haf]
        exact hfree a (Nat.le_of_succ_le ha)
  · -- the walk stopped at a node `c` with `¬ c.key < key`
    have hc' : updateL s.heap s.fresh ⟨MPtr.null, key, value⟩ c
        = some cnd := hc
    rw [hpost] at hsegpost' hfpost'
    obtain ⟨pn0, hpn0, hpn0next, hsegc⟩ := LSeg_cons_inv hsegpost'
    obtain ⟨kv, mpost1, hkv, hfpost1, hdropeq⟩ :=
      List.forall₂_cons_left_iff.mp hfpost'
    obtain ⟨cnd1, hc1, hkk, hvv⟩ := hkv
    rw [hc'] at hc1
    cases hc1
    have hcmem : c ∈ post := by
      rw [hpost]
      exact List.mem_cons_self c post1
    have hclt : c < s.fresh := hbound c (hmem_post c hcmem)
    have hc_ne_f : c ≠ s.fresh := Nat.ne_of_lt hclt
    have hf_ne_c : s.fresh ≠ c := Ne.symm hc_ne_f
    have hprev_ne_c : prev1 ≠ c := by
      intro hEq
      exact hndsplit.2.2 hprev_mem (hEq ▸ hcmem)
    have hc_ne_prev : c ≠ prev1 := Ne.symm hprev_ne_c
    have hzmem_c : z ∈ c :: post1 := LSeg_last_mem hsegc
    have hz_ne_p : z ≠ prev1 := by
      intro hEq
      exact hndsplit.2.2 (hEq ▸ hprev_mem) (hpost ▸ hzmem_c)
    have hnd_post : (c :: post1).Nodup := by
      rw [← hpost]
      exact hndsplit.2.1
    have hpw_kv : List.Pairwise (fun x y => x.1 < y.1) (kv :: mpost1) := by
      rw [← hdropeq]
      exact hpw_post
    by_cases hklt : key < cnd.key
    · -- strictly greater: the new node is linked just before `c`
      have hfound : (!decide (key < cnd.key)) = false := by simp [hklt]
      rw [hfound] at heq
      have hheadlt : key < kv.1 := by
        rw [← hkk]
        exact hklt
      obtain ⟨hlook, -, hinsert⟩ := ref_notfound_eqs key value hsort
        (by
          rw [hdropeq]
          intro kv1 hkv1
          cases hkv1
          exact hheadlt)
      have hgt : ∀ x ∈ m.dropWhile (fun kv => decide (kv.1 < key)),
          key < x.1 := by
        rw [hdropeq]
        exact dropWhile_all_gt hpw_kv hheadlt
      have hsetN : setNext
          { heap := (updateL s.heap s.fresh ⟨MPtr.null, key, value⟩),
            fresh := s.fresh + 1 } s.fresh (MPtr.ofPtr (some c))
          = some { heap := (updateL (updateL s.heap s.fresh
                ⟨MPtr.null, key, value⟩) s.fresh
                ⟨MPtr.ofPtr (some c), key, value⟩),
                   fresh := s.fresh + 1 } := by
        simp [setNext, updateL_self]
      have hpn02 : updateL (updateL s.heap s.fresh ⟨MPtr.null, key, value⟩)
          s.fresh ⟨MPtr.ofPtr (some c), key, value⟩ prev1 = some pn0 := by
        rw [updateL_ne _ _ hp_ne_f]
        exact hpn0
      have hcasN : casNext
          { heap := (updateL (updateL s.heap s.fresh ⟨MPtr.null, key, value⟩)
              s.fresh ⟨MPtr.ofPtr (some c), key, value⟩),
            fresh := s.fresh + 1 } prev1 (MPtr.ofPtr (some c))
          (MPtr.ofPtr (some s.fresh))
          = some ({ heap := (updateL (updateL (updateL s.heap s.fresh
                  ⟨MPtr.null, key, value⟩) s.fresh
                  ⟨MPtr.ofPtr (some c), key, value⟩)
                prev1 { pn0 with next := MPtr.ofPtr (some s.fresh) }),
                    fresh := s.fresh + 1 }, true) := by
        simp [casNext, hpn02, hpn0next]
      refine ⟨{ heap := (updateL (updateL (updateL s.heap s.fresh
              ⟨MPtr.null, key, value⟩) s.fresh
              ⟨MPtr.ofPtr (some c), key, value⟩)
            prev1 { pn0 with next := MPtr.ofPtr (some s.fresh) }),
                fresh := s.fresh + 1 }, ?_, ?_⟩
      · rw [hlook]
        show putLoop key value s.fresh (s.fresh + 1 + 1) (s.fresh + 1 + 1)
            { heap := (updateL s.heap s.fresh ⟨MPtr.null, key, value⟩),
              fresh := s.fresh + 1 } 0 MPtr.null = _
        rw [putLoop, heq]
        simp [hsetN, hcasN]
      · rw [hinsert]
        have hpair_pres : ∀ (x : Addr) (kv1 : Nat × Nat),
            pairRel (updateL s.heap s.fresh ⟨MPtr.null, key, value⟩) x kv1 →
            pairRel (updateL (updateL (updateL s.heap s.fresh
                ⟨MPtr.null, key, value⟩) s.fresh
                ⟨MPtr.ofPtr (some c), key, value⟩)
              prev1 { pn0 with next := MPtr.ofPtr (some s.fresh) }) x kv1 := by
          intro x kv1 hrel
          have h1 : pairRel (updateL (updateL s.heap s.fresh
              ⟨MPtr.null, key, value⟩) s.fresh
              ⟨MPtr.ofPtr (some c), key, value⟩) x kv1 :=
            pairRel_update_keep
              (show updateL s.heap s.fresh ⟨MPtr.null, key, value⟩ s.fresh
                  = some ⟨MPtr.null, key, value⟩ from updateL_self _ _ _)
              ⟨MPtr.ofPtr (some c), key, value⟩ rfl rfl hrel
          exact pairRel_update_next hpn02 (MPtr.ofPtr (some s.fresh)) h1
        have hnewF : updateL (updateL (updateL s.heap s.fresh
            ⟨MPtr.null, key, value⟩) s.fresh
            ⟨MPtr.ofPtr (some c), key, value⟩)
            prev1 { pn0 with next := MPtr.ofPtr (some s.fresh) } s.fresh
            = some ⟨MPtr.ofPtr (some c), key, value⟩ := by
          rw [updateL_ne _ _ hf_ne_p]
          exact updateL_self _ _ _
        have hz3 : updateL (updateL (updateL s.heap s.fresh
            ⟨MPtr.null, key, value⟩) s.fresh
            ⟨MPtr.ofPtr (some c), key, value⟩)
            prev1 { pn0 with next := MPtr.ofPtr (some s.fresh) } z
            = some zn := by
          rw [updateL_ne _ _ hz_ne_p, updateL_ne _ _ hz_ne_f]
          exact hz1
        refine ⟨pre ++ s.fresh :: c :: post1, z, zn, ?_, hz3, hzn, ?_, ?_,
          ?_, ?_, ?_⟩
        · have hpre3 : LSeg (updateL (updateL (updateL s.heap s.fresh
              ⟨MPtr.null, key, value⟩) s.fresh
              ⟨MPtr.ofPtr (some c), key, value⟩)
              prev1 { pn0 with next := MPtr.ofPtr (some s.fresh) })
              0 pre prev1 := by
            refine LSeg_frame hsegpre' hndsplit.1 ?_
            intro x hx hxp
            have hxf : x ≠ s.fresh := hbound_ne x (hmem_pre x hx)
            rw [updateL_ne _ _ hxp, updateL_ne _ _ hxf]
          refine LSeg_append hpre3 ?_
          refine LSeg.cons (updateL_self _ _ _) ?_ ?_
          · show MNode.next { pn0 with next := MPtr.ofPtr (some s.fresh) }
                = MPtr.ofPtr (some s.fresh)
            rfl
          · refine LSeg.cons hnewF rfl ?_
            refine LSeg_frame hsegc hnd_post ?_
            intro x hx _
            show updateL (updateL (updateL s.heap s.fresh
                ⟨MPtr.null, key, value⟩) s.fresh
                ⟨MPtr.ofPtr (some c), key, value⟩)
              prev1 { pn0 with next := MPtr.ofPtr (some s.fresh) } x
              = updateL s.heap s.fresh ⟨MPtr.null, key, value⟩ x
            have hxf : x ≠ s.fresh :=
              hbound_ne x (hmem_post x (hpost ▸ hx))
            have hxp : x ≠ prev1 := by
              intro hEq
              exact hndsplit.2.2 (hEq ▸ hprev_mem) (hpost ▸ hx)
            rw [updateL_ne _ _ hxp, updateL_ne _ _ hxf]
        · refine List.rel_append
            (List.Forall₂.imp (fun a b hab => hpair_pres a b hab) hfpre') ?_
          refine List.Forall₂.cons ?_
            (List.Forall₂.imp (fun a b hab => hpair_pres a b hab) hfpost')
          exact ⟨⟨MPtr.ofPtr (some c), key, value⟩, hnewF, rfl, rfl⟩
        · exact pairwise_insert_split hpre_lt hgt hpw_pre hpw_post
        · intro a ha
          rcases List.mem_cons.mp ha with rfl | hmem
          · exact Nat.lt_succ_of_lt (hbound 0 (by simp))
          · rcases List.mem_append.mp hmem with h1 | h1
            · exact Nat.lt_succ_of_lt
                (hbound a (hmem_pre a (List.mem_cons_of_mem 0 h1)))
            · rcases List.mem_cons.mp h1 with rfl | h2
              · exact Nat.lt_succ_self _
              · exact Nat.lt_succ_of_lt
                  (hbound a (hmem_post a (hpost ▸ h2)))
        · have hok : ((0 :: pre) ++ s.fresh :: c :: post1).Nodup := by
            refine List.nodup_append.mpr ⟨hndsplit.1, ?_, ?_⟩
            · rw [List.nodup_cons]
              refine ⟨?_, hnd_post⟩
              intro hmem
              exact hbound_ne s.fresh
                (hmem_post s.fresh (hpost ▸ hmem)) rfl
            · intro x hx hx2
              rcases List.mem_cons.mp hx2 with rfl | hx3
              · exact hbound_ne s.fresh (hmem_pre s.fresh hx) rfl
              · exact hndsplit.2.2 hx (hpost ▸ hx3)
          exact hok
        · intro a ha
          show updateL (updateL (updateL s.heap s.fresh
              ⟨MPtr.null, key, value⟩) s.fresh
              ⟨MPtr.ofPtr (some c), key, value⟩)
            prev1 { pn0 with next := MPtr.ofPtr (some s.fresh) } a = none
          have haf : a ≠ s.fresh :=
            Ne.symm (Nat.ne_of_lt (Nat.lt_of_succ_le ha))
          have hap : a ≠ prev1 := Ne.symm (Nat.ne_of_lt
            (Nat.lt_of_lt_of_le hplt (Nat.le_of_succ_le ha)))
          rw [updateL_ne _ _ hap, updateL_ne _ _ haf, updateL_ne _ _ haf]
          exact hfree a (Nat.le_of_succ_le ha)
    · -- the key is already present: the new node replaces `c`
      have hkey : cnd.key = key :=
        Nat.le_antisymm (Nat.le_of_not_lt hklt) (Nat.le_of_not_lt hnl)
      have hfound : (!decide (key < cnd.key)) = true := by simp [hklt]
      rw [hfound] at heq
      obtain ⟨hlook, -, hinsert⟩ := ref_found_eqs key value hdropeq
        (by rw [← hkk, hkey])
      have hmark : cnd.next.is_marked = false :=
        LSeg_next_unmarked hsegc hc' hz1 hzn
      have hsetN : setNext
          { heap := (updateL s.heap s.fresh ⟨MPtr.null, key, value⟩),
            fresh := s.fresh + 1 } s.fresh cnd.next
          = some { heap := (updateL (updateL s.heap s.fresh
                ⟨MPtr.null, key, value⟩) s.fresh ⟨cnd.next, key, value⟩),
                   fresh := s.fresh + 1 } := by
        simp [setNext, updateL_self]
      have hc2 : updateL (updateL s.heap s.fresh ⟨MPtr.null, key, value⟩)
          s.fresh ⟨cnd.next, key, value⟩ c = some cnd := by
        rw [updateL_ne _ _ hc_ne_f]
        exact hc'
      have hcas1 : casNext
          { heap := (updateL (updateL s.heap s.fresh ⟨MPtr.null, key, value⟩)
              s.fresh ⟨cnd.next, key, value⟩),
            fresh := s.fresh + 1 } c cnd.next
          (MPtr.ofPtr (some s.fresh)).to_marked
          = some ({ heap := (updateL (updateL (updateL s.heap s.fresh
                  ⟨MPtr.null, key, value⟩) s.fresh ⟨cnd.next, key, value⟩)
                c { cnd with
                    next := (MPtr.ofPtr (some s.fresh)).to_marked }),
                    fresh := s.fresh + 1 }, true) := by
        simp [casNext, hc2]
      have hpn03 : updateL (updateL (updateL s.heap s.fresh
          ⟨MPtr.null, key, value⟩) s.fresh ⟨cnd.next, key, value⟩)
          c { cnd with next := (MPtr.ofPtr (some s.fresh)).to_marked } prev1
          = some pn0 := by
        rw [updateL_ne _ _ hprev_ne_c, updateL_ne _ _ hp_ne_f]
        exact hpn0
      have hcas2 : casNext
          { heap := (updateL (updateL (updateL s.heap s.fresh
                ⟨MPtr.null, key, value⟩) s.fresh ⟨cnd.next, key, value⟩)
              c { cnd with next := (MPtr.ofPtr (some s.fresh)).to_marked }),
            fresh := s.fresh + 1 } prev1 (MPtr.ofPtr (some c))
          (MPtr.ofPtr (some s.fresh))
          = some ({ heap := (updateL (updateL (updateL (updateL s.heap s.fresh
                  ⟨MPtr.null, key, value⟩) s.fresh ⟨cnd.next, key, value⟩)
                c { cnd with next := (MPtr.ofPtr (some s.fresh)).to_marked })
                prev1 { pn0 with next := MPtr.ofPtr (some s.fresh) }),
                    fresh := s.fresh + 1 }, true) := by
        simp [casNext, hpn03, hpn0next]
      have h4c : updateL (updateL (updateL (updateL s.heap s.fresh
          ⟨MPtr.null, key, value⟩) s.fresh ⟨cnd.next, key, value⟩)
          c { cnd with next := (MPtr.ofPtr (some s.fresh)).to_marked })
          prev1 { pn0 with next := MPtr.ofPtr (some s.fresh) } c
          = some { cnd with
              next := (MPtr.ofPtr (some s.fresh)).to_marked } := by
        rw [updateL_ne _ _ hc_ne_prev]
        exact updateL_self _ _ _
      have hrcn : replaceCurrNode
          { heap := (updateL (updateL s.heap s.fresh ⟨MPtr.null, key, value⟩)
              s.fresh ⟨cnd.next, key, value⟩),
            fresh := s.fresh + 1 } prev1 c cnd.next
          (MPtr.ofPtr (some s.fresh))
          = some ({ heap := (updateL (updateL (updateL (updateL s.heap s.fresh
                  ⟨MPtr.null, key, value⟩) s.fresh ⟨cnd.next, key, value⟩)
                c { cnd with next := (MPtr.ofPtr (some s.fresh)).to_marked })
                prev1 { pn0 with next := MPtr.ofPtr (some s.fresh) }),
                    fresh := s.fresh + 1 }, true, cnd.next, some cnd.value) := by
        simp [replaceCurrNode, hmark, MPtr.is_marked_ofPtr, hcas1, hcas2, h4c]
      refine ⟨{ heap := (updateL (updateL (updateL (updateL s.heap s.fresh
              ⟨MPtr.null, key, value⟩) s.fresh ⟨cnd.next, key, value⟩)
            c { cnd with next := (MPtr.ofPtr (some s.fresh)).to_marked })
            prev1 { pn0 with next := MPtr.ofPtr (some s.fresh) }),
                fresh := s.fresh + 1 }, ?_, ?_⟩
      · rw [hlook, ← hvv]
        show putLoop key value s.fresh (s.fresh + 1 + 1) (s.fresh + 1 + 1)
            { heap := (updateL s.heap s.fresh ⟨MPtr.null, key, value⟩),
              fresh := s.fresh + 1 } 0 MPtr.null = _
        rw [putLoop, heq]
        simp only [if_pos rfl, putInner, hsetN, hrcn]
        rfl
      · rw [hinsert]
        have hpair_pres : ∀ (x : Addr) (kv1 : Nat × Nat),
            pairRel (updateL s.heap s.fresh ⟨MPtr.null, key, value⟩) x kv1 →
            pairRel (updateL (updateL (updateL (updateL s.heap s.fresh
                ⟨MPtr.null, key, value⟩) s.fresh ⟨cnd.next, key, value⟩)
              c { cnd with next := (MPtr.ofPtr (some s.fresh)).to_marked })
              prev1 { pn0 with next := MPtr.ofPtr (some s.fresh) }) x kv1 := by
          intro x kv1 hrel
          have h1 : pairRel (updateL (updateL s.heap s.fresh
              ⟨MPtr.null, key, value⟩) s.fresh ⟨cnd.next, key, value⟩) x kv1 :=
            pairRel_update_keep
              (show updateL s.heap s.fresh ⟨MPtr.null, key, value⟩ s.fresh
                  = some ⟨MPtr.null, key, value⟩ from updateL_self _ _ _)
              ⟨cnd.next, key, value⟩ rfl rfl hrel
          have h2 := pairRel_update_next hc2
            (MPtr.ofPtr (some s.fresh)).to_marked h1
          exact pairRel_update_next hpn03 (MPtr.ofPtr (some s.fresh)) h2
        have hnewF : updateL (updateL (updateL (updateL s.heap s.fresh
            ⟨MPtr.null, key, value⟩) s.fresh ⟨cnd.next, key, value⟩)
            c { cnd with next := (MPtr.ofPtr (some s.fresh)).to_marked })
            prev1 { pn0 with next := MPtr.ofPtr (some s.fresh) } s.fresh
            = some ⟨cnd.next, key, value⟩ := by
          rw [updateL_ne _ _ hf_ne_p, updateL_ne _ _ hf_ne_c]
          exact updateL_self _ _ _
        have hpw_mpost1 : List.Pairwise (fun x y => x.1 < y.1) mpost1 :=
          (List.pairwise_cons.mp hpw_kv).2
        have hgt1 : ∀ x ∈ mpost1, key < x.1 := by
          intro x hx
          have hlt := (List.pairwise_cons.mp hpw_kv).1 x hx
          rw [← hkk, hkey] at hlt
          exact hlt
        have hpre_new : LSeg (updateL (updateL (updateL (updateL s.heap
            s.fresh ⟨MPtr.null, key, value⟩) s.fresh ⟨cnd.next, key, value⟩)
            c { cnd with next := (MPtr.ofPtr (some s.fresh)).to_marked })
            prev1 { pn0 with next := MPtr.ofPtr (some s.fresh) })
            0 pre prev1 := by
          refine LSeg_frame hsegpre' hndsplit.1 ?_
          intro x hx hxp
          have hxf : x ≠ s.fresh := hbound_ne x (hmem_pre x hx)
          have hxc : x ≠ c := fun hEq => hndsplit.2.2 (hEq ▸ hx) hcmem
          rw [updateL_ne _ _ hxp, updateL_ne _ _ hxc, updateL_ne _ _ hxf]
        have hfree_new : ∀ a : Addr, s.fresh + 1 ≤ a →
            updateL (updateL (updateL (updateL s.heap s.fresh
              ⟨MPtr.null, key, value⟩) s.fresh ⟨cnd.next, key, value⟩)
              c { cnd with next := (MPtr.ofPtr (some s.fresh)).to_marked })
              prev1 { pn0 with next := MPtr.ofPtr (some s.fresh) } a
              = none := by
          intro a ha
          have haf : a ≠ s.fresh :=
            Ne.symm (Nat.ne_of_lt (Nat.lt_of_succ_le ha))
          have hap : a ≠ prev1 := Ne.symm (Nat.ne_of_lt
            (Nat.lt_of_lt_of_le hplt (Nat.le_of_succ_le ha)))
          have hac : a ≠ c := Ne.symm (Nat.ne_of_lt
            (Nat.lt_of_lt_of_le hclt (Nat.le_of_succ_le ha)))
          rw [updateL_ne _ _ hap, updateL_ne _ _ hac, updateL_ne _ _ haf,
            updateL_ne _ _ haf]
          exact hfree a (Nat.le_of_succ_le ha)
        cases post1 with
        | nil =>
          -- `c` was the tail: the new node becomes the tail
          have hzc : z = c := LSeg_nil_inv hsegc
          have hczn : cnd = zn := by
            rw [hzc, hc'] at hz1
            exact Option.some.inj hz1
          have hnull : cnd.next = MPtr.null := by
            rw [hczn]
            exact hzn
          have hmp1 : mpost1 = [] := List.forall₂_nil_left_iff.mp hfpost1
          subst hmp1
          refine ⟨pre ++ [s.fresh], s.fresh, ⟨cnd.next, key, value⟩,
            ?_, hnewF, hnull, ?_, ?_, ?_, ?_, hfree_new⟩
          · refine LSeg_append hpre_new ?_
            refine LSeg.cons (updateL_self _ _ _) ?_ LSeg.nil
            show MNode.next { pn0 with next := MPtr.ofPtr (some s.fresh) }
                = MPtr.ofPtr (some s.fresh)
            rfl
          · refine forall₂_append_singleton
              (List.Forall₂.imp (fun a b hab => hpair_pres a b hab) hfpre') ?_
            exact ⟨⟨cnd.next, key, value⟩, hnewF, rfl, rfl⟩
          · exact pairwise_insert_split hpre_lt
              (by intro kv1 hkv1; cases hkv1) hpw_pre List.Pairwise.nil
          · intro a ha
            rcases List.mem_cons.mp ha with rfl | hmem
            · exact Nat.lt_succ_of_lt (hbound 0 (by simp))
            · rcases List.mem_append.mp hmem with h1 | h1
              · exact Nat.lt_succ_of_lt
                  (hbound a (hmem_pre a (List.mem_cons_of_mem 0 h1)))
              · rw [List.mem_singleton] at h1
                rw [h1]
                exact Nat.lt_succ_self _
          · have hok : ((0 :: pre) ++ [s.fresh]).Nodup := by
              refine List.nodup_append.mpr
                ⟨hndsplit.1, List.nodup_singleton _, ?_⟩
              intro x hx hx2
              rw [List.mem_singleton] at hx2
              exact hbound_ne x (hmem_pre x hx) hx2
            exact hok
        | cons d rest2 =>
          -- `c` had a successor `d`: the new node links to it
          obtain ⟨cnd2, hc3, hcnextd, hsegd⟩ := LSeg_cons_inv hsegc
          rw [hc'] at hc3
          cases hc3
          have hzmem_d : z ∈ d :: rest2 := LSeg_last_mem hsegd
          have hz_ne_c : z ≠ c := by
            intro hEq
            exact (List.nodup_cons.mp hnd_post).1 (hEq ▸ hzmem_d)
          have hnd_dr : (d :: rest2).Nodup := (List.nodup_cons.mp hnd_post).2
          have hz4 : updateL (updateL (updateL (updateL s.heap s.fresh
              ⟨MPtr.null, key, value⟩) s.fresh ⟨cnd.next, key, value⟩)
              c { cnd with next := (MPtr.ofPtr (some s.fresh)).to_marked })
              prev1 { pn0 with next := MPtr.ofPtr (some s.fresh) } z
              = some zn := by
            rw [updateL_ne _ _ hz_ne_p, updateL_ne _ _ hz_ne_c,
              updateL_ne _ _ hz_ne_f]
            exact hz1
          refine ⟨pre ++ s.fresh :: d :: rest2, z, zn, ?_, hz4, hzn, ?_, ?_,
            ?_, ?_, hfree_new⟩
          · refine LSeg_append hpre_new ?_
            refine LSeg.cons (updateL_self _ _ _) ?_ ?_
            · show MNode.next { pn0 with next := MPtr.ofPtr (some s.fresh) }
                  = MPtr.ofPtr (some s.fresh)
              rfl
            · refine LSeg.cons hnewF ?_ ?_
              · show MNode.next (⟨cnd.next, key, value⟩ : MNode)
                    = MPtr.ofPtr (some d)
                exact hcnextd
              · refine LSeg_frame hsegd hnd_dr ?_
                intro x hx _
                show updateL (updateL (updateL (updateL s.heap s.fresh
                    ⟨MPtr.null, key, value⟩) s.fresh ⟨cnd.next, key, value⟩)
                    c { cnd with
                        next := (MPtr.ofPtr (some s.fresh)).to_marked })
                  prev1 { pn0 with next := MPtr.ofPtr (some s.fresh) } x
                  = updateL s.heap s.fresh ⟨MPtr.null, key, value⟩ x
                have hx_post : x ∈ c :: d :: rest2 :=
                  List.mem_cons_of_mem c hx
                have hxf : x ≠ s.fresh :=
                  hbound_ne x (hmem_post x (hpost ▸ hx_post))
                have hxc : x ≠ c := fun hEq =>
                  (List.nodup_cons.mp hnd_post).1 (hEq ▸ hx)
                have hxp : x ≠ prev1 := by
                  intro hEq
                  exact hndsplit.2.2 (hEq ▸ hprev_mem) (hpost ▸ hx_post)
                rw [updateL_ne _ _ hxp, updateL_ne _ _ hxc,
                  updateL_ne _ _ hxf]
          · refine List.rel_append
              (List.Forall₂.imp (fun a b hab => hpair_pres a b hab) hfpre') ?_
            refine List.Forall₂.cons ?_
              (List.Forall₂.imp (fun a b hab => hpair_pres a b hab) hfpost1)
            exact ⟨⟨cnd.next, key, value⟩, hnewF, rfl, rfl⟩
          · exact pairwise_insert_split hpre_lt hgt1 hpw_pre hpw_mpost1
          · intro a ha
            rcases List.mem_cons.mp ha with rfl | hmem
            · exact Nat.lt_succ_of_lt (hbound 0 (by simp))
            · rcases List.mem_append.mp hmem with h1 | h1
              · exact Nat.lt_succ_of_lt
                  (hbound a (hmem_pre a (List.mem_cons_of_mem 0 h1)))
              · rcases List.mem_cons.mp h1 with rfl | h2
                · exact Nat.lt_succ_self _
                · exact Nat.lt_succ_of_lt (hbound a (hmem_post a
                    (hpost ▸ List.mem_cons_of_mem c h2)))
          · have hok : ((0 :: pre) ++ s.fresh :: d :: rest2).Nodup := by
              refine List.nodup_append.mpr ⟨hndsplit.1, ?_, ?_⟩
              · rw [List.nodup_cons]
                refine ⟨?_, hnd_dr⟩
                intro hmem
                exact hbound_ne s.fresh (hmem_post s.fresh
                  (hpost ▸ List.mem_cons_of_mem c hmem)) rfl
              · intro x hx hx2
                rcases List.mem_cons.mp hx2 with rfl | hx3
                · exact hbound_ne s.fresh (hmem_pre s.fresh hx) rfl
                · exact hndsplit.2.2 hx
                    (hpost ▸ List.mem_cons_of_mem c hx3)
            exact hok

theorem lInit_inv : LInv lInit [] := by
  refine ⟨[], 0, ⟨MPtr.null, 0, 0⟩, LSeg.nil, rfl, rfl, List.Forall₂.nil,
    List.Pairwise.nil, ?_, ?_, ?_⟩
  · intro a ha
    rw [List.mem_singleton] at ha
    rw [ha]
    exact Nat.lt_succ_self 0
  · exact List.nodup_singleton 0
  · intro a ha
    have h0 : a ≠ 0 := by
      intro hEq
      rw [hEq] at ha
      exact absurd ha (by decide)
    simp [lInit, h0]

theorem lRunAux_spec :
    ∀ (ops : List LOp) (s : LState) (m : List (Nat × Nat)), LInv s m →
      ∃ s', lRunAux ops s = some (s', refLRun ops m) ∧
        LInv s' (refLFinal ops m) := by
  intro ops
  induction ops with
  | nil => exact fun s m h => ⟨s, rfl, h⟩
  | cons op ops ih =>
    intro s m h
    cases op with
    | get k =>
      have hget := getOp_spec h k
      obtain ⟨s', hrun, hinv'⟩ := ih s m h
      exact ⟨s', by simp [lRunAux, hget, hrun, refLRun], hinv'⟩
    | put k v =>
      obtain ⟨s₁, hput, hinv₁⟩ := putOp_spec h k v
      obtain ⟨s', hrun, hinv'⟩ := ih s₁ (refInsert m k v) hinv₁
      exact ⟨s', by simp [lRunAux, hput, hrun, refLRun], hinv'⟩
    | remove k =>
      obtain ⟨s₁, hrm, hinv₁⟩ := removeOp_spec h k
      obtain ⟨s', hrun, hinv'⟩ := ih s₁ (refErase m k) hinv₁
      exact ⟨s', by simp [lRunAux, hrm, hrun, refLRun], hinv'⟩
    | iter =>
      have hfe := forEachOp_spec h
      obtain ⟨s', hrun, hinv'⟩ := ih s m h
      exact ⟨s', by simp [lRunAux, hfe, hrun, refLRun], hinv'⟩

/-- C4: on a quiescent sorted list (any state satisfying the list-map
invariant for a reference map `m`), `searchEqual` started with `prev_hp`
at the sentinel terminates without modifying the state; the final
`prev_hp` is the last node whose key is below the search key (the
sentinel if there is none), `curr_hp` is the first node whose key is not
below it (null if there is none), the `curr_next` output is that node's
`next` field when it exists, and the return value is true exactly when
that node exists and its key equals the search key. -/
theorem C4_search_postcondition {s : LState} {m : List (Nat × Nat)}
    (h : LInv s m) (key : Nat) :
    ∃ (found : Bool) (prev1 : Addr) (curr : Option Addr) (cn : MPtr)
      (pre post : List Addr),
      searchEqual (s.fresh + 2) s 0 MPtr.null key
        = some (s, found, prev1, curr, cn) ∧
      found = (refLookup m key).isSome ∧
      LSeg s.heap 0 pre prev1 ∧
      List.Forall₂ (pairRel s.heap) pre
        (m.takeWhile (fun kv => decide (kv.1 < key))) ∧
      List.Forall₂ (pairRel s.heap) post
        (m.dropWhile (fun kv => decide (kv.1 < key))) ∧
      curr = post.head? ∧
      (∀ c : Addr, curr = some c → ∃ cnd : MNode, s.heap c = some cnd ∧
        cn = cnd.next ∧ ¬ cnd.key < key ∧ (found = true ↔ cnd.key = key)) := by
  obtain ⟨addrs, z, zn, hseg, hz, hzn, hm, hsort, hbound, hnd, hfree⟩ := h
  obtain ⟨prev1, pre, post, hsplit, hsegpre, hsegpost, hfpre, hfpost, hdisj⟩ :=
    search_at_inv hseg hz hzn hm hbound hnd
      (show s.fresh < s.fresh + 2 from
        Nat.lt_of_lt_of_le (Nat.lt_succ_self _) (Nat.le_succ _)) key MPtr.null
  rcases hdisj with ⟨hpost, cnr, heq⟩ | ⟨c, post1, cnd, hpost, hc, hnl, heq⟩
  · have hmpost : m.dropWhile (fun kv => decide (kv.1 < key)) = [] := by
      rw [hpost] at hfpost
      exact List.forall₂_nil_left_iff.mp hfpost
    obtain ⟨hlook, -, -⟩ := ref_notfound_eqs key 0 hsort
      (by rw [hmpost]; intro kv hkv; cases hkv)
    refine ⟨false, prev1, none, cnr, pre, post, heq, ?_, hsegpre, hfpre,
      hfpost, ?_, ?_⟩
    · rw [hlook]
      rfl
    · rw [hpost]
      rfl
    · intro c hc
      cases hc
  · rw [hpost] at hfpost
    obtain ⟨kv, mpost1, hkv, hfpost1, hdropeq⟩ :=
      List.forall₂_cons_left_iff.mp hfpost
    obtain ⟨cnd1, hc1, hkk, hvv⟩ := hkv
    rw [hc] at hc1
    cases hc1
    refine ⟨!decide (key < cnd.key), prev1, some c, cnd.next, pre, post, heq,
      ?_, hsegpre, hfpre, hpost ▸ hfpost, ?_, ?_⟩
    · by_cases hklt : key < cnd.key
      · obtain ⟨hlook, -, -⟩ := ref_notfound_eqs key 0 hsort
          (by
            rw [hdropeq]
            intro kv1 hkv1
            cases hkv1
            rw [← hkk]
            exact hklt)
        rw [hlook]
        simp [hklt]
      · have hkey : cnd.key = key :=
          Nat.le_antisymm (Nat.le_of_not_lt hklt) (Nat.le_of_not_lt hnl)
        obtain ⟨hlook, -, -⟩ := ref_found_eqs key 0 hdropeq
          (by rw [← hkk, hkey])
        rw [hlook]
        simp [hklt]
    · rw [hpost]
      rfl
    · intro c1 hc1
      cases hc1
      refine ⟨cnd, hc, rfl, hnl, ?_⟩
      by_cases hklt : key < cnd.key
      · have hne : cnd.key ≠ key := by
          intro hEq
          rw [hEq] at hklt
          exact Nat.lt_irrefl key hklt
        simp [hklt, hne]
      · have hkey : cnd.key = key :=
          Nat.le_antisymm (Nat.le_of_not_lt hklt) (Nat.le_of_not_lt hnl)
        simp [hklt, hkey]

/-- C4 witness: a concrete quiescent one-entry list (sentinel at 0, one
node at 1 holding the pair (5, 7)) satisfies the invariant, and the
search postcondition theorem applies to it at key 5. -/
theorem C4_search_postcondition_witness :
    LInv { heap := (fun a => if a = 0 then some ⟨MPtr.ofPtr (some 1), 0, 0⟩
            else if a = 1 then some ⟨MPtr.null, 5, 7⟩ else none),
           fresh := 2 } [(5, 7)] ∧
    (∃ (found : Bool) (prev1 : Addr) (curr : Option Addr) (cn : MPtr)
      (pre post : List Addr),
      searchEqual (2 + 2)
          { heap := (fun a => if a = 0 then some ⟨MPtr.ofPtr (some 1), 0, 0⟩
              else if a = 1 then some ⟨MPtr.null, 5, 7⟩ else none),
            fresh := 2 } 0 MPtr.null 5
        = some ({ heap := (fun a => if a = 0
                  then some ⟨MPtr.ofPtr (some 1), 0, 0⟩
                  else if a = 1 then some ⟨MPtr.null, 5, 7⟩ else none),
                  fresh := 2 }, found, prev1, curr, cn) ∧
      found = (refLookup [(5, 7)] 5).isSome ∧
      LSeg (fun a => if a = 0 then some ⟨MPtr.ofPtr (some 1), 0, 0⟩
          else if a = 1 then some ⟨MPtr.null, 5, 7⟩ else none) 0 pre prev1 ∧
      List.Forall₂ (pairRel (fun a => if a = 0
          then some ⟨MPtr.ofPtr (some 1), 0, 0⟩
          else if a = 1 then some ⟨MPtr.null, 5, 7⟩ else none)) pre
        ([(5, 7)].takeWhile (fun kv => decide (kv.1 < 5))) ∧
      List.Forall₂ (pairRel (fun a => if a = 0
          then some ⟨MPtr.ofPtr (some 1), 0, 0⟩
          else if a = 1 then some ⟨MPtr.null, 5, 7⟩ else none)) post
        ([(5, 7)].dropWhile (fun kv => decide (kv.1 < 5))) ∧
      curr = post.head? ∧
      (∀ c : Addr, curr = some c → ∃ cnd : MNode,
        (if c = 0 then some (⟨MPtr.ofPtr (some 1), 0, 0⟩ : MNode)
          else if c = 1 then some ⟨MPtr.null, 5, 7⟩ else none) = some cnd ∧
        cn = cnd.next ∧ ¬ cnd.key < 5 ∧ (found = true ↔ cnd.key = 5))) := by
  have hinv : LInv { heap := (fun a => if a = 0
                      then some ⟨MPtr.ofPtr (some 1), 0, 0⟩
                      else if a = 1 then some ⟨MPtr.null, 5, 7⟩ else none),
                      fresh := 2 } [(5, 7)] := by
    refine ⟨[1], 1, ⟨MPtr.null, 5, 7⟩, ?_, rfl, rfl, ?_, ?_, ?_, ?_, ?_⟩
    · exact LSeg.cons rfl rfl LSeg.nil
    · exact List.Forall₂.cons ⟨⟨MPtr.null, 5, 7⟩, rfl, rfl, rfl⟩
        List.Forall₂.nil
    · exact List.pairwise_singleton _ _
    · intro a ha
      rcases List.mem_cons.mp ha with rfl | ha1
      · exact Nat.lt_succ_of_lt (Nat.lt_succ_self 0)
      · rw [List.mem_singleton] at ha1
        rw [ha1]
        exact Nat.lt_succ_self 1
    · decide
    · intro a ha
      have h0 : a ≠ 0 := by
        intro hEq
        rw [hEq] at ha
        exact absurd ha (by decide)
      have h1 : a ≠ 1 := by
        intro hEq
        rw [hEq] at ha
        exact absurd ha (by decide)
      simp [h0, h1]
  exact ⟨hinv, C4_search_postcondition hinv 5⟩

/-- C5: sequentially, the sorted list map is the reference finite map: on
every operation sequence from the empty map, `put` reports and returns
the previously mapped value exactly when the key was present, `remove`
reports and returns the removed value exactly when the key was present,
and `get` reports the value of the most recent unerased insertion. -/
theorem C5_map_refinement (ops : List LOp) :
    lRunOuts ops = some (refLRun ops []) := by
  obtain ⟨s', hrun, -⟩ := lRunAux_spec ops lInit [] lInit_inv
  simp [lRunOuts, lRun, hrun]

/-- C6: every sequence of sequentially executed operations from the empty
map leads to a state whose chain from the sentinel visits pairwise
distinct nodes carrying strictly increasing keys and ends in a null
terminator, and `forEach` on that quiescent state reports each live pair
exactly once, in strictly increasing key order. -/
theorem C6_sorted_chain_invariant (ops : List LOp) :
    ∃ (s : LState) (outs : List LOut) (addrs : List Addr) (z : Addr)
      (zn : MNode) (pairs : List (Nat × Nat)),
      lRun ops = some (s, outs) ∧
      LSeg s.heap 0 addrs z ∧ s.heap z = some zn ∧ zn.next = MPtr.null ∧
      List.Forall₂ (pairRel s.heap) addrs pairs ∧
      List.Pairwise (fun x y => x.1 < y.1) pairs ∧
      (0 :: addrs).Nodup ∧
      forEachOp s = some (s, pairs) := by
  obtain ⟨s', hrun, hinv⟩ := lRunAux_spec ops lInit [] lInit_inv
  have hfe := forEachOp_spec hinv
  obtain ⟨addrs, z, zn, hseg, hz, hzn, hforall, hpw, -, hnd, -⟩ := hinv
  exact ⟨s', refLRun ops [], addrs, z, zn, refLFinal ops [], hrun, hseg, hz,
    hzn, hforall, hpw, hnd, hfe⟩

end Lockfree
